import Mathlib

/-!
Verification of the generalized sumcheck prover state machine
(src/crates/core/src/protocols/sumcheck/prove_general.rs) and the
round-coefficient helpers (src/src/protocols/sumcheck/prove_utils.rs)
of the wasm-binius repository.

The prover code is embedded faithfully as executable Lean functions.
The field is an arbitrary commutative ring `F` (the tower-field
arithmetic is external to the repository snapshot).  The multilinear
polynomial abstraction, the `MultilinearQuery` and the evaluator
plug-in are external collaborators whose code is not part of the
snapshot; they are modelled from the specification (sections 3, 4.2
and 6), as noted on each definition.  Rust `usize` arithmetic is
modelled on `Nat` with explicit checks wherever the source could
underflow (debug-build panic semantics); fallible paths return
`Option`/`Except`.
-/

namespace WasmBinius

variable {F : Type} [CommRing F]

/-- Modelled from the spec (glossary "Tensor query"): the expanded tensor
product of a challenge list, entry at index `v` being the product over
challenge positions `k` of `cs[k]` when bit `k` of `v` is set and
`1 - cs[k]` otherwise.  The first challenge governs the lowest bit, matching
the fold-consistency property 4 of the spec (section 8). -/
def tensorElem (cs : List F) (v : ℕ) : F :=
  match cs with
  | [] => 1
  | c :: rest => (if v % 2 = 1 then c else 1 - c) * tensorElem rest (v / 2)

/-- Contraction of an evaluation table over its low variables against the
tensor of a challenge list: the semantic content of `evaluate_partial_low`
and `evaluate_subcube` (spec section 6). -/
def contractEvals (e : ℕ → F) (cs : List F) : ℕ → F :=
  fun i => ∑ v ∈ Finset.range (2 ^ cs.length),
    tensorElem cs v * e (i * 2 ^ cs.length + v)

/-- One-challenge contraction: pins the lowest variable of the table to a
single challenge, halving it. -/
def halveEvals (e : ℕ → F) (c : F) : ℕ → F :=
  fun i => (1 - c) * e (2 * i) + c * e (2 * i + 1)

theorem tensorElem_nil (v : ℕ) : tensorElem ([] : List F) v = 1 := rfl

theorem tensorElem_cons (c : F) (cs : List F) (v : ℕ) :
    tensorElem (c :: cs) v =
      (if v % 2 = 1 then c else 1 - c) * tensorElem cs (v / 2) := rfl

theorem contractEvals_nil (e : ℕ → F) : contractEvals e [] = e := by
  funext i
  simp [contractEvals, tensorElem]

theorem sum_range_two_mul (n : ℕ) (g : ℕ → F) :
    ∑ u ∈ Finset.range (2 * n), g u =
      ∑ v ∈ Finset.range n, (g (2 * v) + g (2 * v + 1)) := by
  induction n with
  | zero => simp
  | succ m ih =>
    have h2 : 2 * (m + 1) = (2 * m + 1) + 1 := by ring
    rw [h2, Finset.sum_range_succ, Finset.sum_range_succ, ih,
      Finset.sum_range_succ, add_assoc]

theorem contractEvals_cons (e : ℕ → F) (c : F) (cs : List F) :
    contractEvals e (c :: cs) = contractEvals (halveEvals e c) cs := by
  funext i
  unfold contractEvals
  have hlen : (c :: cs).length = cs.length + 1 := rfl
  have hpow : 2 ^ (cs.length + 1) = 2 * 2 ^ cs.length := by
    rw [pow_succ]; ring
  rw [hlen, hpow, sum_range_two_mul]
  apply Finset.sum_congr rfl
  intro v _
  have hmod0 : (2 * v) % 2 = 0 := by omega
  have hdiv0 : (2 * v) / 2 = v := by omega
  have hmod1 : (2 * v + 1) % 2 = 1 := by omega
  have hdiv1 : (2 * v + 1) / 2 = v := by omega
  rw [tensorElem_cons, tensorElem_cons, hmod0, hdiv0, hmod1, hdiv1]
  have hidx0 : i * (2 * 2 ^ cs.length) + 2 * v = 2 * (i * 2 ^ cs.length + v) := by
    ring
  have hidx1 : i * (2 * 2 ^ cs.length) + (2 * v + 1) =
      2 * (i * 2 ^ cs.length + v) + 1 := by ring
  rw [hidx0, hidx1]
  norm_num [halveEvals]
  ring

theorem contractEvals_eq_foldl (e : ℕ → F) (cs : List F) :
    contractEvals e cs = cs.foldl halveEvals e := by
  induction cs generalizing e with
  | nil => simpa using contractEvals_nil e
  | cons c rest ih =>
    rw [contractEvals_cons, List.foldl_cons, ih]

theorem contractEvals_singleton (e : ℕ → F) (c : F) :
    contractEvals e [c] = halveEvals e c := by
  rw [contractEvals_cons, contractEvals_nil]

theorem contractEvals_append (e : ℕ → F) (cs ds : List F) :
    contractEvals (contractEvals e cs) ds = contractEvals e (cs ++ ds) := by
  rw [contractEvals_eq_foldl e (cs ++ ds), List.foldl_append,
    ← contractEvals_eq_foldl, ← contractEvals_eq_foldl]

theorem contractEvals_append_singleton (e : ℕ → F) (cs : List F) (c : F) :
    contractEvals (contractEvals e cs) [c] = contractEvals e (cs ++ [c]) :=
  contractEvals_append e cs [c]

/-- Modelled from the spec (section 6, multilinear operand interface): a
multilinear polynomial given by its table of evaluations on the hypercube
vertices, together with its variable count and extension degree.  Indices at
or above `2 ^ nVars` are never read by the in-range operations. -/
@[ext]
structure Multilin (F : Type) where
  nVars : ℕ
  extDeg : ℕ
  evals : ℕ → F

/-- Modelled from the spec (section 6, hypercube_eval): evaluation at a
hypercube vertex, failing when the index is out of range. -/
def Multilin.evaluate_on_hypercube (m : Multilin F) (i : ℕ) : Option F :=
  if i < 2 ^ m.nVars then some (m.evals i) else none

/-- Modelled from the spec (sections 3 and 6, tensor query interface): an
ordered sequence of prior round challenges together with the capacity the
backing tensor expansion was allocated for.  The expanded tensor itself is
recovered by `tensorElem`. -/
structure MultilinearQuery (F : Type) where
  maxVars : ℕ
  challenges : List F

/-- Modelled from the spec (section 6): fresh empty query with a given
capacity. -/
def MultilinearQuery.new (cap : ℕ) : MultilinearQuery F :=
  { maxVars := cap, challenges := [] }

/-- Modelled from the spec (section 6): query holding exactly the given
challenges. -/
def MultilinearQuery.with_full_query (cs : List F) : MultilinearQuery F :=
  { maxVars := cs.length, challenges := cs }

/-- Modelled from the spec (sections 6 and 7): append challenges, failing on
tensor over-allocation (exceeding the allocated capacity). -/
def MultilinearQuery.update (q : MultilinearQuery F) (cs : List F) :
    Option (MultilinearQuery F) :=
  if q.challenges.length + cs.length ≤ q.maxVars then
    some { maxVars := q.maxVars, challenges := q.challenges ++ cs }
  else none

/-- Modelled from the spec (section 6, subcube_eval): contraction of the
multilinear over the low variables covered by the query, evaluated at a
remaining-variable vertex; fails when the query is wider than the
multilinear or the vertex is out of range. -/
def Multilin.evaluate_subcube (m : Multilin F) (i : ℕ)
    (q : MultilinearQuery F) : Option F :=
  if q.challenges.length ≤ m.nVars ∧ i < 2 ^ (m.nVars - q.challenges.length)
  then some (contractEvals m.evals q.challenges i)
  else none

/-- Modelled from the spec (section 6, partial_low): low-variable partial
evaluation against a query, returning a materialized multilinear over
`nVars - query.nVars` variables; fails on arity mismatch. -/
def Multilin.evaluate_partial_low (m : Multilin F) (q : MultilinearQuery F) :
    Option (Multilin F) :=
  if q.challenges.length ≤ m.nVars then
    some { nVars := m.nVars - q.challenges.length
           extDeg := m.extDeg
           evals := contractEvals m.evals q.challenges }
  else none

/-- Embeds enum SumcheckMultilinear of prove_general.rs: an individual
multilinear operand, either still transparent (small field, with its
switchover round) or already folded into the large field. -/
inductive SumcheckMultilinear (F : Type) where
  | transparent (switchover : ℕ) (small_field_multilin : Multilin F)
  | folded (large_field_folded_multilin : Multilin F)

/-- Tests the Transparent variant, as the matches! in sum_round_evals. -/
def SumcheckMultilinear.isTransparent : SumcheckMultilinear F → Bool
  | .transparent _ _ => true
  | .folded _ => false

/-- Tests the Folded variant, as the matches! in sum_round_evals. -/
def SumcheckMultilinear.isFolded : SumcheckMultilinear F → Bool
  | .transparent _ _ => false
  | .folded _ => true

/-- Embeds the sumcheck error taxonomy (spec section 7): the validation
error of ProverState::new, propagated polynomial failures, and panics from
expect or unchecked usize arithmetic (debug-build semantics). -/
inductive SCError where
  | incorrectNumberOfVariables (expected actual : ℕ)
  | polynomialFailure
  | panicked
deriving DecidableEq

/-- Embeds struct ProverState of prove_general.rs. -/
structure ProverState (F : Type) where
  multilinears : List (SumcheckMultilinear F)
  query : Option (MultilinearQuery F)
  round : ℕ
  n_rounds : ℕ

/-- Embeds the operand-collection loop of ProverState::new: validates each
operand arity against n_rounds (failing with the first offender), tags each
operand transparent with its switchover, and threads the running maximum of
the switchover values. -/
def mkMultilinears (n_rounds : ℕ) (switchover_fn : ℕ → ℕ) :
    List (Multilin F) → ℕ → Except SCError (List (SumcheckMultilinear F) × ℕ)
  | [], acc => .ok ([], acc)
  | m :: rest, acc =>
    if m.nVars ≠ n_rounds then
      .error (.incorrectNumberOfVariables n_rounds m.nVars)
    else
      match mkMultilinears n_rounds switchover_fn rest
          (max acc (switchover_fn m.extDeg)) with
      | .error e => .error e
      | .ok (tail, mx) =>
        .ok (.transparent (switchover_fn m.extDeg) m :: tail, mx)

/-- Embeds ProverState::new: validate the operands, then allocate the shared
tensor query sized to the maximum switchover (at least 1). -/
def ProverState.new (n_rounds : ℕ) (multilinears : List (Multilin F))
    (switchover_fn : ℕ → ℕ) : Except SCError (ProverState F) :=
  match mkMultilinears n_rounds switchover_fn multilinears 1 with
  | .error e => .error e
  | .ok (mls, max_query_vars) =>
    .ok { multilinears := mls
          query := some (MultilinearQuery.new max_query_vars)
          round := 0
          n_rounds := n_rounds }

/-- Embeds the operand loop of ProverState::fold: switchover a transparent
operand whose round has come (consuming the already-updated shared tensor,
panicking if it is absent), keep a transparent operand whose switchover is
still ahead (recording that one is left), and halve a folded operand against
the one-challenge partial query. -/
def foldMultilins (query : Option (MultilinearQuery F))
    (partial_query : MultilinearQuery F) (round : ℕ) :
    List (SumcheckMultilinear F) →
      Except SCError (List (SumcheckMultilinear F) × Bool)
  | [] => .ok ([], false)
  | ml :: rest =>
    match (match ml with
      | .transparent switchover small =>
        if switchover ≤ round then
          match query with
          | none => .error .panicked
          | some q =>
            match small.evaluate_partial_low q with
            | none => .error .polynomialFailure
            | some lf => .ok (.folded lf, false)
        else .ok (.transparent switchover small, true)
      | .folded lf =>
        match lf.evaluate_partial_low partial_query with
        | none => .error .polynomialFailure
        | some lf2 => .ok (.folded lf2, false) :
        Except SCError (SumcheckMultilinear F × Bool)) with
    | .error e => .error e
    | .ok (ml2, flag) =>
      match foldMultilins query partial_query round rest with
      | .error e => .error e
      | .ok (rest2, flag2) => .ok (ml2 :: rest2, flag || flag2)

/-- Embeds ProverState::fold: increment the round, extend the shared tensor
query by the challenge (before any switchover, which consumes the updated
tensor), build the one-challenge partial query, process every operand, and
drop the tensor when no transparent operand is left. -/
def ProverState.fold (s : ProverState F) (prev_rd_challenge : F) :
    Except SCError (ProverState F) :=
  match s.query with
  | some prev_query =>
    match prev_query.update [prev_rd_challenge] with
    | none => .error .polynomialFailure
    | some expanded_query =>
      match foldMultilins (some expanded_query)
          (MultilinearQuery.with_full_query [prev_rd_challenge])
          (s.round + 1) s.multilinears with
      | .error e => .error e
      | .ok (mls, any_transparent_left) =>
        .ok { multilinears := mls
              query := if any_transparent_left then some expanded_query else none
              round := s.round + 1
              n_rounds := s.n_rounds }
  | none =>
    match foldMultilins none
        (MultilinearQuery.with_full_query [prev_rd_challenge])
        (s.round + 1) s.multilinears with
    | .error e => .error e
    | .ok (mls, _any_transparent_left) =>
      .ok { multilinears := mls
            query := none
            round := s.round + 1
            n_rounds := s.n_rounds }

/-- Drives the prover through a sequence of verifier challenges, folding each
in order (the caller loop of the spec, section 2). -/
def foldMany (s : ProverState F) : List F → Except SCError (ProverState F)
  | [] => .ok s
  | c :: rest =>
    match s.fold c with
    | .error e => .error e
    | .ok s2 => foldMany s2 rest

/-- Embeds ProverState::direct_sample: raw hypercube evaluations of one
operand at vertices 2i and 2i+1; the expects become failure. -/
def direct_sample (m : Multilin F) (i : ℕ) : Option (F × F) :=
  match m.evaluate_on_hypercube (2 * i), m.evaluate_on_hypercube (2 * i + 1) with
  | some eval0, some eval1 => some (eval0, eval1)
  | _, _ => none

/-- Embeds ProverState::subcube_inner_product: tensor-contracted evaluations
of one operand at vertices 2i and 2i+1 against the shared query; the expect
on query presence and the range expects become failure. -/
def ProverState.subcube_inner_product (s : ProverState F) (m : Multilin F)
    (i : ℕ) : Option (F × F) :=
  match s.query with
  | none => none
  | some q =>
    match m.evaluate_subcube (2 * i) q, m.evaluate_subcube (2 * i + 1) q with
    | some eval0, some eval1 => some (eval0, eval1)
    | _, _ => none

/-- Embeds ProverState::only_transparent: projects the transparent payload,
panicking (failure) on a folded operand. -/
def only_transparent : SumcheckMultilinear F → Option (Multilin F)
  | .transparent _ small => some small
  | .folded _ => none

/-- Embeds ProverState::only_folded: projects the folded payload, panicking
(failure) on a transparent operand. -/
def only_folded : SumcheckMultilinear F → Option (Multilin F)
  | .transparent _ _ => none
  | .folded lf => some lf

/-- Modelled from the spec (section 4.2, evaluator plug-in contract): the
evaluator declares a constant number of round evaluations and, per hypercube
vertex, accumulates a contribution vector (computed from the vertex index
and the per-operand evaluations at 0 and at 1) into the round accumulator.
The writable scratch evals_z is internal to the evaluator and not
observable. -/
structure Evaluator (F : Type) where
  n_round_evals : ℕ
  contribution : ℕ → List F → List F → List F

/-- Element-wise vector addition, as the zipped += reduction of
sum_round_evals_helper (truncating to the shorter operand, as iterator zip
does). -/
def addVec (a b : List F) : List F := List.zipWith (· + ·) a b

/-- Sequences a fallible map over a list, failing at the first failure (the
behavior of the panicking buffer-filling loops in the source). -/
def mapOpt {α β : Type} (g : α → Option β) : List α → Option (List β)
  | [] => some []
  | a :: l =>
    match g a, mapOpt g l with
    | some b, some bs => some (b :: bs)
    | _, _ => none

/-- Sequences a fallible left fold over a list, failing at the first
failure. -/
def foldlOpt {α β : Type} (g : β → α → Option β) : β → List α → Option β
  | b, [] => some b
  | b, a :: l =>
    match g b a with
    | none => none
    | some c => foldlOpt g c l

/-- Per-vertex sampling of every operand with a given eval01 kernel, as done
inside the parallel fold closure. -/
def ProverState.vertexPairs (s : ProverState F)
    (eval01 : SumcheckMultilinear F → ℕ → Option (F × F)) (i : ℕ) :
    Option (List (F × F)) :=
  mapOpt (fun ml => eval01 ml i) s.multilinears

/-- Per-vertex accumulator update: sample all operands, then add the
evaluator contribution for this vertex, as the fold closure of
sum_round_evals_helper. -/
def ProverState.vertexStep (s : ProverState F)
    (eval01 : SumcheckMultilinear F → ℕ → Option (F × F)) (ev : Evaluator F)
    (acc : List F) (i : ℕ) : Option (List F) :=
  (s.vertexPairs eval01 i).map fun ps =>
    addVec acc (ev.contribution i (ps.map Prod.fst) (ps.map Prod.snd))

/-- Embeds ProverState::sum_round_evals_helper: iterate the halved hypercube
of the remaining variables, accumulating evaluator contributions from zero.
The usize subtractions n_rounds - round and rd_vars - 1 are modelled with
explicit underflow checks (debug-build panic when round exceeds n_rounds or
rd_vars is zero).  The rayon partitioning is modelled by the canonical
sequential order; partition-independence is proved separately. -/
def ProverState.sum_round_evals_helper (s : ProverState F)
    (eval01 : SumcheckMultilinear F → ℕ → Option (F × F)) (ev : Evaluator F) :
    Option (List F) :=
  if s.n_rounds < s.round then none
  else
    let rd_vars := s.n_rounds - s.round
    if rd_vars = 0 then none
    else
      foldlOpt (s.vertexStep eval01 ev) (List.replicate ev.n_round_evals 0)
        (List.range (2 ^ (rd_vars - 1)))

/-- Embeds the kernel dispatch of ProverState::sum_round_evals: the
all-transparent first round and all-folded cases direct-sample, the
all-transparent later rounds use subcube inner products, and the
heterogeneous (or empty) case dispatches per operand. -/
def ProverState.chooseEval01 (s : ProverState F) :
    SumcheckMultilinear F → ℕ → Option (F × F) :=
  let any_transparent := s.multilinears.any SumcheckMultilinear.isTransparent
  let any_folded := s.multilinears.any SumcheckMultilinear.isFolded
  match any_transparent, any_folded with
  | true, false =>
    if s.round = 0 then
      fun ml i => (only_transparent ml).bind fun m => direct_sample m i
    else
      fun ml i => (only_transparent ml).bind fun m => s.subcube_inner_product m i
  | false, true =>
    fun ml i => (only_folded ml).bind fun m => direct_sample m i
  | _, _ =>
    fun ml i =>
      match ml with
      | .transparent _ small => s.subcube_inner_product small i
      | .folded lf => direct_sample lf i

/-- Embeds ProverState::sum_round_evals: dispatch to a sampling kernel, then
run the generic helper. -/
def ProverState.sum_round_evals (s : ProverState F) (ev : Evaluator F) :
    Option (List F) :=
  s.sum_round_evals_helper s.chooseEval01 ev

/-- Runs the round-sum accumulation under an explicit partitioning of the
vertex range into worker chunks: each chunk folds from a zero accumulator
and the partial results are reduced by element-wise addition, as the rayon
fold and reduce of sum_round_evals_helper. -/
def ProverState.sum_round_evals_partitioned (s : ProverState F)
    (ev : Evaluator F) (chunks : List (List ℕ)) : Option (List F) :=
  if s.n_rounds < s.round then none
  else
    let rd_vars := s.n_rounds - s.round
    if rd_vars = 0 then none
    else
      (mapOpt (fun ch =>
          foldlOpt (s.vertexStep s.chooseEval01 ev)
            (List.replicate ev.n_round_evals 0) ch) chunks).map
        fun partials =>
          partials.foldl addVec (List.replicate ev.n_round_evals 0)

/-- Modelled from the spec (sections 6 and 8): the line through (0, x0) and
(1, x1) evaluated at z. -/
def extrapolate_line (x0 x1 z : F) : F := x0 + (x1 - x0) * z

/-- Embeds the scratch overwrite of process_round_evals in prove_utils.rs:
the zipped for_each writes an extrapolated value into the first
min(evals_0, evals_1, evals_z) positions of the scratch, keeping any
remaining tail. -/
def writeExtrapolations (evals_0 evals_1 : List F) (x : F) (evals_z : List F) :
    List F :=
  List.zipWith (fun p _ => extrapolate_line p.1 p.2 x) (evals_0.zip evals_1)
      evals_z ++
    evals_z.drop (evals_0.zip evals_1).length

/-- Embeds the d-loop of process_round_evals in prove_utils.rs: for each
domain index d, overwrite the scratch with extrapolations at domain[d] and
add the composition of the scratch into round_evals[d - 1], failing
(indexing panic) when that slot does not exist.  The domain index itself is
always in range for the ranges this is called on. -/
def processLoop (comp : List F → F) (evals_0 evals_1 domain : List F) :
    List ℕ → List F → List F → Option (List F × List F)
  | [], evals_z, round_evals => some (evals_z, round_evals)
  | d :: rest, evals_z, round_evals =>
    if d - 1 < round_evals.length then
      let z2 := writeExtrapolations evals_0 evals_1 (domain.getD d 0) evals_z
      processLoop comp evals_0 evals_1 domain rest z2
        (round_evals.set (d - 1) (round_evals.getD (d - 1) 0 + comp z2))
    else none

/-- Embeds process_round_evals of prove_utils.rs: add the composition of the
X = 1 evaluations into round_evals[0] (failing when round_evals is empty),
then run the extrapolation loop for d in 2..=degree.  The composition
evaluation itself is modelled from the spec as infallible (section 7:
process_vertex is infallible by contract; the expects on evaluate_packed
are unreachable for correctly-sized buffers). -/
def process_round_evals (comp : List F → F)
    (evals_0 evals_1 evals_z round_evals domain : List F) :
    Option (List F × List F) :=
  let degree := domain.length - 1
  if 0 < round_evals.length then
    processLoop comp evals_0 evals_1 domain (List.range' 2 (degree - 1))
      evals_z (round_evals.set 0 (round_evals.getD 0 0 + comp evals_1))
  else none

/-- Embeds the vertex loop of compute_round_coeffs_first in prove_utils.rs:
for each vertex i, overwrite the evaluation buffers with the hypercube
samples of every operand at 2i and 2i+1 (failing on an out-of-range panic),
then process the round evaluations, threading the scratch and accumulator
exactly as the rayon fold state does. -/
def computeLoop (comp : List F → F) (ops : List (Multilin F))
    (domain : List F) :
    List ℕ → List F → List F → Option (List F × List F)
  | [], evals_z, round_evals => some (evals_z, round_evals)
  | i :: rest, evals_z, round_evals =>
    match mapOpt (fun m => m.evaluate_on_hypercube (2 * i)) ops,
        mapOpt (fun m => m.evaluate_on_hypercube (2 * i + 1)) ops with
    | some evals_0, some evals_1 =>
      match process_round_evals comp evals_0 evals_1 evals_z round_evals
          domain with
      | some (z2, re2) => computeLoop comp ops domain rest z2 re2
      | none => none
    | _, _ => none

/-- Embeds the round-coefficient computation of compute_round_coeffs_first
in prove_utils.rs: iterate the halved hypercube with zero-initialized
buffers sized to the operand count and the composition degree, and return
the accumulated round evaluations.  rd_vars is the composite arity
(poly.n_vars()); the usize expression 1 << (rd_vars - 1) is modelled with
an explicit underflow check.  The rayon reduce is modelled by the canonical
sequential fold, as in sum_round_evals_helper. -/
def compute_round_coeffs_first (comp : List F → F) (ops : List (Multilin F))
    (rd_vars : ℕ) (domain : List F) : Option (List F) :=
  let degree := domain.length - 1
  let n_multilinears := ops.length
  if rd_vars = 0 then none
  else
    match computeLoop comp ops domain (List.range (2 ^ (rd_vars - 1)))
        (List.replicate n_multilinears 0) (List.replicate degree 0) with
    | some (_, round_evals) => some round_evals
    | none => none

/-- Naive reference value of the round-0 univariate round polynomial at a
point x: the sum over the halved hypercube of the composition applied to
each operand pinned to x in its lowest variable (spec glossary, round
polynomial, with the multilinear in the low variable written as the line
through its two hypercube restrictions). -/
def roundPolyEval (comp : List F → F) (ops : List (Multilin F))
    (rd_vars : ℕ) (x : F) : F :=
  ∑ i ∈ Finset.range (2 ^ (rd_vars - 1)),
    comp (ops.map fun m =>
      extrapolate_line (m.evals (2 * i)) (m.evals (2 * i + 1)) x)

/-! Helper lemmas about the fallible map and fold. -/

theorem bool_not_eq_false {b : Bool} (h : (!b) = false) : b = true := by
  cases b
  · simp at h
  · rfl

theorem bool_not_eq_true {b : Bool} (h : (!b) = true) : b = false := by
  cases b
  · rfl
  · simp at h

theorem mapOpt_eq_some_map {α β : Type} (g : α → Option β) (h : α → β)
    (l : List α) (hall : ∀ x ∈ l, g x = some (h x)) :
    mapOpt g l = some (l.map h) := by
  induction l with
  | nil => rfl
  | cons a t ih =>
    have ha := hall a (by simp)
    have ht := ih fun x hx => hall x (by simp [hx])
    simp [mapOpt, ha, ht]

theorem mapOpt_map {α β γ : Type} (g : β → Option γ) (f : α → β)
    (l : List α) : mapOpt g (l.map f) = mapOpt (fun a => g (f a)) l := by
  induction l with
  | nil => rfl
  | cons a t ih => simp [mapOpt, ih]

theorem foldlOpt_eq_some_foldl {α β : Type} (g : β → α → Option β)
    (h : β → α → β) (l : List α) (b : β)
    (hall : ∀ acc, ∀ a ∈ l, g acc a = some (h acc a)) :
    foldlOpt g b l = some (l.foldl h b) := by
  induction l generalizing b with
  | nil => rfl
  | cons a t ih =>
    have ha := hall b a (by simp)
    have ht := ih (h b a) fun acc x hx => hall acc x (by simp [hx])
    simp [foldlOpt, ha, ht]

theorem foldlOpt_eq_none {α β : Type} (g : β → α → Option β)
    (l : List α) (b : β) (a0 : α) (ha0 : a0 ∈ l)
    (hbad : ∀ acc, g acc a0 = none) :
    foldlOpt g b l = none := by
  induction l generalizing b with
  | nil => simp at ha0
  | cons a t ih =>
    rcases List.mem_cons.mp ha0 with h | h
    · subst h
      simp [foldlOpt, hbad b]
    · unfold foldlOpt
      cases hga : g b a with
      | none => rfl
      | some c => exact ih c h

/-! Characterization of the reachable prover states. -/

/-- The form an operand has after the challenges cs have been folded into a
prover built with switchover function f: folded (with the contracted table)
as soon as at least one fold has happened and the switchover round has been
reached, transparent otherwise. -/
def opAfter (f : ℕ → ℕ) (n : ℕ) (cs : List F) (m : Multilin F) :
    SumcheckMultilinear F :=
  if cs.length ≠ 0 ∧ f m.extDeg ≤ cs.length then
    .folded { nVars := n - cs.length
              extDeg := m.extDeg
              evals := contractEvals m.evals cs }
  else .transparent (f m.extDeg) m

/-- The tensor capacity computed by ProverState::new: the running maximum of
the switchover values, started at 1. -/
def maxQ (f : ℕ → ℕ) (ms : List (Multilin F)) : ℕ :=
  ms.foldl (fun acc m => max acc (f m.extDeg)) 1

/-- Shape of the prover state reached from fresh construction by folding the
challenges cs: explicit round, operands, and tensor query (present exactly
while some operand has not yet switched over, holding all challenges so
far). -/
def StateShape (n : ℕ) (f : ℕ → ℕ) (ms : List (Multilin F)) (cs : List F)
    (st : ProverState F) : Prop :=
  st.round = cs.length ∧ st.n_rounds = n ∧
  st.multilinears = ms.map (opAfter f n cs) ∧
  ((cs.length = 0 ∨ ∃ m ∈ ms, cs.length < f m.extDeg) →
    st.query = some ⟨maxQ f ms, cs⟩) ∧
  (¬ (cs.length = 0 ∨ ∃ m ∈ ms, cs.length < f m.extDeg) → st.query = none)

theorem foldl_max_ge_acc (f : ℕ → ℕ) (ms : List (Multilin F)) (acc : ℕ) :
    acc ≤ ms.foldl (fun a (m : Multilin F) => max a (f m.extDeg)) acc := by
  induction ms generalizing acc with
  | nil => simp
  | cons m t ih =>
    simpa using le_trans (le_max_left acc (f m.extDeg)) (ih (max acc (f m.extDeg)))

theorem foldl_max_ge_mem (f : ℕ → ℕ) (ms : List (Multilin F))
    (m : Multilin F) (hm : m ∈ ms) (acc : ℕ) :
    f m.extDeg ≤ ms.foldl (fun a (m2 : Multilin F) => max a (f m2.extDeg)) acc := by
  induction ms generalizing acc with
  | nil => simp at hm
  | cons m2 t ih =>
    rcases List.mem_cons.mp hm with h | h
    · subst h
      simpa using le_trans (le_max_right acc (f m.extDeg))
        (foldl_max_ge_acc f t (max acc (f m.extDeg)))
    · simpa using ih h (max acc (f m2.extDeg))

theorem one_le_maxQ (f : ℕ → ℕ) (ms : List (Multilin F)) : 1 ≤ maxQ f ms :=
  foldl_max_ge_acc f ms 1

theorem mkMultilinears_ok (n : ℕ) (f : ℕ → ℕ) (ms : List (Multilin F))
    (hms : ∀ m ∈ ms, m.nVars = n) (acc : ℕ) :
    mkMultilinears n f ms acc =
      .ok (ms.map fun m => .transparent (f m.extDeg) m,
        ms.foldl (fun a m => max a (f m.extDeg)) acc) := by
  induction ms generalizing acc with
  | nil => rfl
  | cons m t ih =>
    have hm : m.nVars = n := hms m (by simp)
    have ht := ih (fun x hx => hms x (by simp [hx])) (max acc (f m.extDeg))
    simp [mkMultilinears, hm, ht]

theorem new_ok (n : ℕ) (f : ℕ → ℕ) (ms : List (Multilin F))
    (hms : ∀ m ∈ ms, m.nVars = n) :
    ProverState.new n ms f =
      .ok { multilinears := ms.map fun m => .transparent (f m.extDeg) m
            query := some ⟨maxQ f ms, []⟩
            round := 0
            n_rounds := n } := by
  unfold ProverState.new
  rw [mkMultilinears_ok n f ms hms 1]
  rfl

theorem new_shape (n : ℕ) (f : ℕ → ℕ) (ms : List (Multilin F))
    (hms : ∀ m ∈ ms, m.nVars = n) :
    ∃ st, ProverState.new n ms f = .ok st ∧ StateShape n f ms [] st := by
  refine ⟨_, new_ok n f ms hms, rfl, rfl, ?_, ?_, ?_⟩
  · apply List.map_congr_left
    intro m _
    simp [opAfter]
  · intro _
    rfl
  · intro h
    exact absurd (Or.inl rfl) h

theorem foldMultilins_shape (n : ℕ) (f : ℕ → ℕ) (cs : List F) (c : F)
    (mq : ℕ) (ms : List (Multilin F))
    (hms : ∀ m ∈ ms, m.nVars = n) (hlt : cs.length < n)
    (q : Option (MultilinearQuery F))
    (hq : ∀ m ∈ ms, (cs.length = 0 ∨ cs.length < f m.extDeg) →
      f m.extDeg ≤ cs.length + 1 → q = some ⟨mq, cs ++ [c]⟩) :
    foldMultilins q (MultilinearQuery.with_full_query [c]) (cs.length + 1)
        (ms.map (opAfter f n cs)) =
      .ok (ms.map (opAfter f n (cs ++ [c])),
        ms.any fun m => decide (cs.length + 1 < f m.extDeg)) := by
  induction ms with
  | nil => rfl
  | cons m t ih =>
    have hmv : m.nVars = n := hms m (by simp)
    have hih := ih (fun x hx => hms x (by simp [hx]))
      (fun x hx h1 h2 => hq x (by simp [hx]) h1 h2)
    rw [List.map_cons, List.map_cons]
    by_cases h1 : cs.length ≠ 0 ∧ f m.extDeg ≤ cs.length
    · -- already folded: halve against the one-challenge partial query
      have hop : opAfter f n cs m =
          SumcheckMultilinear.folded
            { nVars := n - cs.length, extDeg := m.extDeg
              evals := contractEvals m.evals cs } := by
        simp only [opAfter]
        rw [if_pos h1]
      have hop2 : opAfter f n (cs ++ [c]) m =
          SumcheckMultilinear.folded
            { nVars := n - (cs ++ [c]).length, extDeg := m.extDeg
              evals := contractEvals m.evals (cs ++ [c]) } := by
        simp only [opAfter]
        rw [if_pos ⟨by simp, by simp; omega⟩]
      have hpl : Multilin.evaluate_partial_low
          (F := F)
          { nVars := n - cs.length, extDeg := m.extDeg
            evals := contractEvals m.evals cs }
          (MultilinearQuery.with_full_query [c]) =
          some { nVars := n - (cs ++ [c]).length, extDeg := m.extDeg
                 evals := contractEvals m.evals (cs ++ [c]) } := by
        rw [Multilin.evaluate_partial_low,
          if_pos (by simp [MultilinearQuery.with_full_query]; omega)]
        have h2 : n - cs.length - 1 = n - (cs ++ [c]).length := by
          simp
          omega
        simp [MultilinearQuery.with_full_query, h2,
          contractEvals_append_singleton]
      rw [hop, hop2]
      simp only [foldMultilins]
      rw [hpl, hih]
      have hflag : decide (cs.length + 1 < f m.extDeg) = false := by
        simp
        omega
      simp [hflag]
    · -- still transparent entering this fold
      have hop : opAfter f n cs m =
          SumcheckMultilinear.transparent (f m.extDeg) m := by
        simp only [opAfter]
        rw [if_neg h1]
      by_cases h2 : f m.extDeg ≤ cs.length + 1
      · -- switchover round reached: contract against the updated tensor
        have hqm : q = some ⟨mq, cs ++ [c]⟩ :=
          hq m (by simp) (by omega) h2
        have hop2 : opAfter f n (cs ++ [c]) m =
            SumcheckMultilinear.folded
              { nVars := n - (cs ++ [c]).length, extDeg := m.extDeg
                evals := contractEvals m.evals (cs ++ [c]) } := by
          simp only [opAfter]
          rw [if_pos ⟨by simp, by simp; omega⟩]
        have hpl : Multilin.evaluate_partial_low m
            (⟨mq, cs ++ [c]⟩ : MultilinearQuery F) =
            some { nVars := n - (cs ++ [c]).length, extDeg := m.extDeg
                   evals := contractEvals m.evals (cs ++ [c]) } := by
          rw [Multilin.evaluate_partial_low, if_pos (by simp [hmv]; omega)]
          simp [hmv]
        rw [hop, hop2]
        simp only [foldMultilins]
        rw [if_pos h2, hqm]
        rw [hqm] at hih
        simp only [hpl, hih]
        have hflag : decide (cs.length + 1 < f m.extDeg) = false := by
          simp
          omega
        simp [hflag]
      · -- switchover still ahead: unchanged, a transparent operand remains
        have hop2 : opAfter f n (cs ++ [c]) m =
            SumcheckMultilinear.transparent (f m.extDeg) m := by
          simp only [opAfter]
          rw [if_neg (by simp; omega)]
        rw [hop, hop2]
        simp only [foldMultilins]
        rw [if_neg h2, hih]
        have hflag : decide (cs.length + 1 < f m.extDeg) = true := by
          simp
          omega
        simp [hflag]

/-- Convenience driver: construct the prover and fold a full challenge
sequence, propagating any error. -/
def newAndFold (n : ℕ) (ms : List (Multilin F)) (f : ℕ → ℕ) (cs : List F) :
    Except SCError (ProverState F) :=
  match ProverState.new n ms f with
  | .error e => .error e
  | .ok s => foldMany s cs

theorem fold_shape (n : ℕ) (f : ℕ → ℕ) (ms : List (Multilin F)) (cs : List F)
    (c : F) (st : ProverState F) (hms : ∀ m ∈ ms, m.nVars = n)
    (hlt : cs.length < n) (hsh : StateShape n f ms cs st) :
    ∃ st2, st.fold c = .ok st2 ∧ StateShape n f ms (cs ++ [c]) st2 := by
  obtain ⟨hr, hn, hml, hqpos, hqneg⟩ := hsh
  by_cases hQ : cs.length = 0 ∨ ∃ m ∈ ms, cs.length < f m.extDeg
  · have hq := hqpos hQ
    have hcond : cs.length + 1 ≤ maxQ f ms := by
      rcases hQ with h0 | ⟨m, hm, hlt2⟩
      · have := one_le_maxQ f ms
        omega
      · have h3 : f m.extDeg ≤ maxQ f ms := foldl_max_ge_mem f ms m hm 1
        omega
    have hupd : (⟨maxQ f ms, cs⟩ : MultilinearQuery F).update [c] =
        some ⟨maxQ f ms, cs ++ [c]⟩ := by
      rw [MultilinearQuery.update, if_pos (by simpa using hcond)]
    have hfm := foldMultilins_shape n f cs c (maxQ f ms) ms hms hlt
      (some ⟨maxQ f ms, cs ++ [c]⟩) (fun _ _ _ _ => rfl)
    refine ⟨{ multilinears := ms.map (opAfter f n (cs ++ [c]))
              query := if ms.any (fun m => decide (cs.length + 1 < f m.extDeg))
                then some ⟨maxQ f ms, cs ++ [c]⟩ else none
              round := cs.length + 1
              n_rounds := st.n_rounds },
      ?_, by simp, hn, rfl, ?_, ?_⟩
    · simp only [ProverState.fold, hq, hupd, hr, hml, hfm]
    · intro h
      have hany : ms.any (fun m => decide (cs.length + 1 < f m.extDeg)) = true := by
        rcases h with h0 | ⟨m, hm, hlt2⟩
        · simp at h0
        · refine List.any_eq_true.mpr ⟨m, hm, ?_⟩
          simp only [List.length_append, List.length_cons, List.length_nil] at hlt2
          simpa using hlt2
      rw [hany]
      simp
    · intro h
      have hany : ms.any (fun m => decide (cs.length + 1 < f m.extDeg)) = false := by
        rw [List.any_eq_false]
        intro m hm
        simp only [decide_eq_true_eq]
        intro hcon
        exact h (Or.inr ⟨m, hm, by simp; omega⟩)
      rw [hany]
      simp
  · have hqn := hqneg hQ
    push_neg at hQ
    obtain ⟨h0, hall⟩ := hQ
    have hfm := foldMultilins_shape n f cs c 0 ms hms hlt none
      (fun m hm h1 _ => by
        rcases h1 with h1 | h1
        · exact absurd h1 h0
        · exact absurd h1 (Nat.not_lt.mpr (hall m hm)))
    have hany : ms.any (fun m => decide (cs.length + 1 < f m.extDeg)) = false := by
      rw [List.any_eq_false]
      intro m hm
      simp only [decide_eq_true_eq]
      have := hall m hm
      omega
    refine ⟨{ multilinears := ms.map (opAfter f n (cs ++ [c]))
              query := none
              round := cs.length + 1
              n_rounds := st.n_rounds },
      ?_, by simp, hn, rfl, ?_, fun _ => rfl⟩
    · simp only [ProverState.fold, hqn, hr, hml, hfm]
    · intro h
      rcases h with h | ⟨m, hm, hlt2⟩
      · simp at h
      · have := hall m hm
        simp only [List.length_append, List.length_cons, List.length_nil] at hlt2
        omega

theorem foldMany_append_singleton (s : ProverState F) (xs : List F) (c : F) :
    foldMany s (xs ++ [c]) =
      match foldMany s xs with
      | .error e => .error e
      | .ok s2 => s2.fold c := by
  induction xs generalizing s with
  | nil =>
    cases h : s.fold c with
    | error e => simp [foldMany, h]
    | ok s2 => simp [foldMany, h]
  | cons a t ih =>
    rw [List.cons_append]
    cases h : s.fold a with
    | error e => simp only [foldMany, h]
    | ok s2 =>
      simp only [foldMany, h]
      exact ih s2

theorem reach_shape (n : ℕ) (f : ℕ → ℕ) (ms : List (Multilin F))
    (hms : ∀ m ∈ ms, m.nVars = n) (cs : List F) (hle : cs.length ≤ n) :
    ∃ st, newAndFold n ms f cs = .ok st ∧ StateShape n f ms cs st := by
  induction cs using List.reverseRecOn with
  | nil =>
    obtain ⟨st, hnew, hsh⟩ := new_shape n f ms hms
    exact ⟨st, by simp only [newAndFold, hnew, foldMany], hsh⟩
  | append_singleton xs c ih =>
    have hxs : xs.length ≤ n := by
      simp only [List.length_append, List.length_cons, List.length_nil] at hle
      omega
    have hlt : xs.length < n := by
      simp only [List.length_append, List.length_cons, List.length_nil] at hle
      omega
    obtain ⟨st, hpipe, hsh⟩ := ih hxs
    obtain ⟨st2, hfold, hsh2⟩ := fold_shape n f ms xs c st hms hlt hsh
    refine ⟨st2, ?_, hsh2⟩
    unfold newAndFold at hpipe ⊢
    cases hnew : ProverState.new n ms f with
    | error e =>
      rw [hnew] at hpipe
      exact absurd hpipe (by simp)
    | ok s0 =>
      rw [hnew] at hpipe
      show foldMany s0 (xs ++ [c]) = Except.ok st2
      have hpipe2 : foldMany s0 xs = .ok st := hpipe
      calc foldMany s0 (xs ++ [c])
          = (match foldMany s0 xs with
              | .error e => .error e
              | .ok s2 => s2.fold c) := foldMany_append_singleton s0 xs c
        _ = st.fold c := by rw [hpipe2]
        _ = .ok st2 := hfold

/-! Characterization of the round sums on reachable states. -/

/-- The per-operand contracted evaluations at one vertex: what every
sampling kernel produces on a reachable state. -/
def canonEvalsAt (ms : List (Multilin F)) (cs : List F) (i : ℕ) : List F :=
  ms.map fun m => contractEvals m.evals cs i

/-- Reference value of the round sum on the state reached after folding cs:
accumulate the evaluator contributions over the halved remaining
hypercube. -/
def canonicalSum (n : ℕ) (ms : List (Multilin F)) (cs : List F)
    (ev : Evaluator F) : List F :=
  (List.range (2 ^ (n - cs.length - 1))).foldl
    (fun acc i => addVec acc
      (ev.contribution i (canonEvalsAt ms cs (2 * i))
        (canonEvalsAt ms cs (2 * i + 1))))
    (List.replicate ev.n_round_evals 0)

theorem direct_sample_eq (m : Multilin F) (i : ℕ)
    (h : 2 * i + 1 < 2 ^ m.nVars) :
    direct_sample m i = some (m.evals (2 * i), m.evals (2 * i + 1)) := by
  unfold direct_sample Multilin.evaluate_on_hypercube
  rw [if_pos (by omega), if_pos h]

theorem subcube_inner_product_eq (s : ProverState F) (q : MultilinearQuery F)
    (hq : s.query = some q) (m : Multilin F) (i : ℕ)
    (h1 : q.challenges.length ≤ m.nVars)
    (h2 : 2 * i + 1 < 2 ^ (m.nVars - q.challenges.length)) :
    s.subcube_inner_product m i =
      some (contractEvals m.evals q.challenges (2 * i),
        contractEvals m.evals q.challenges (2 * i + 1)) := by
  unfold ProverState.subcube_inner_product
  rw [hq]
  have e0 : m.evaluate_subcube (2 * i) q =
      some (contractEvals m.evals q.challenges (2 * i)) := by
    unfold Multilin.evaluate_subcube
    rw [if_pos ⟨h1, by omega⟩]
  have e1 : m.evaluate_subcube (2 * i + 1) q =
      some (contractEvals m.evals q.challenges (2 * i + 1)) := by
    unfold Multilin.evaluate_subcube
    rw [if_pos ⟨h1, h2⟩]
  simp only [e0, e1]

theorem isFolded_opAfter (f : ℕ → ℕ) (n : ℕ) (cs : List F) (m : Multilin F) :
    (opAfter f n cs m).isFolded =
      decide (cs.length ≠ 0 ∧ f m.extDeg ≤ cs.length) := by
  unfold opAfter
  split
  next hcond =>
    simp only [SumcheckMultilinear.isFolded]
    exact (decide_eq_true hcond).symm
  next hcond =>
    simp only [SumcheckMultilinear.isFolded]
    exact (decide_eq_false hcond).symm

theorem isTransparent_opAfter (f : ℕ → ℕ) (n : ℕ) (cs : List F)
    (m : Multilin F) :
    (opAfter f n cs m).isTransparent =
      ! decide (cs.length ≠ 0 ∧ f m.extDeg ≤ cs.length) := by
  unfold opAfter
  split
  next hcond =>
    simp only [SumcheckMultilinear.isTransparent]
    rw [decide_eq_true hcond]
    rfl
  next hcond =>
    simp only [SumcheckMultilinear.isTransparent]
    rw [decide_eq_false hcond]
    rfl

theorem vertexPairs_shape (n : ℕ) (f : ℕ → ℕ) (ms : List (Multilin F))
    (cs : List F) (st : ProverState F) (hms : ∀ m ∈ ms, m.nVars = n)
    (hlt : cs.length < n) (hsh : StateShape n f ms cs st) (i : ℕ)
    (hi : i < 2 ^ (n - cs.length - 1)) :
    st.vertexPairs st.chooseEval01 i =
      some (ms.map fun m =>
        (contractEvals m.evals cs (2 * i),
          contractEvals m.evals cs (2 * i + 1))) := by
  obtain ⟨hr, hn, hml, hqpos, hqneg⟩ := hsh
  have hidx : 2 * i + 1 < 2 ^ (n - cs.length) := by
    have hk : n - cs.length = (n - cs.length - 1) + 1 := by omega
    rw [hk, pow_succ]
    omega
  unfold ProverState.vertexPairs
  rw [hml, mapOpt_map]
  apply mapOpt_eq_some_map
  intro m hm
  have hmv : m.nVars = n := hms m hm
  cases hT : st.multilinears.any SumcheckMultilinear.isTransparent with
  | false =>
    -- some operand exists, so at least one variant bit is set
    cases hF : st.multilinears.any SumcheckMultilinear.isFolded with
    | false =>
      exfalso
      have hT2 := hT
      have hF2 := hF
      rw [hml, List.any_eq_false] at hT2 hF2
      have h1 := hT2 (opAfter f n cs m) (List.mem_map_of_mem _ hm)
      have h2 := hF2 (opAfter f n cs m) (List.mem_map_of_mem _ hm)
      rw [isTransparent_opAfter] at h1
      rw [isFolded_opAfter] at h2
      exact (of_decide_eq_false (Bool.eq_false_iff.mpr h2))
        (of_decide_eq_true (bool_not_eq_false (Bool.eq_false_iff.mpr h1)))
    | true =>
      -- all folded
      have hT2 := hT
      rw [hml, List.any_eq_false] at hT2
      have h1 := hT2 (opAfter f n cs m) (List.mem_map_of_mem _ hm)
      rw [isTransparent_opAfter] at h1
      obtain ⟨hlen0, hsw⟩ :=
        of_decide_eq_true (bool_not_eq_false (Bool.eq_false_iff.mpr h1))
      have hop : opAfter f n cs m =
          SumcheckMultilinear.folded
            { nVars := n - cs.length, extDeg := m.extDeg
              evals := contractEvals m.evals cs } := by
        unfold opAfter
        rw [if_pos ⟨hlen0, hsw⟩]
      simp only [ProverState.chooseEval01, hT, hF]
      rw [hop]
      simp only [only_folded, Option.bind_some]
      refine direct_sample_eq _ i ?_
      exact hidx
  | true =>
    have h1 : ¬ (cs.length ≠ 0 ∧ f m.extDeg ≤ cs.length) → opAfter f n cs m =
        SumcheckMultilinear.transparent (f m.extDeg) m := fun hc => by
      unfold opAfter
      rw [if_neg hc]
    cases hF : st.multilinears.any SumcheckMultilinear.isFolded with
    | false =>
      -- all transparent
      have hF2 := hF
      rw [hml, List.any_eq_false] at hF2
      have h2 := hF2 (opAfter f n cs m) (List.mem_map_of_mem _ hm)
      rw [isFolded_opAfter] at h2
      have h2n := of_decide_eq_false (Bool.eq_false_iff.mpr h2)
      simp only [ProverState.chooseEval01, hT, hF]
      by_cases h0 : cs.length = 0
      · have hcs : cs = [] := List.length_eq_zero.mp h0
        rw [if_pos (by omega : st.round = 0)]
        rw [h1 (fun hc => absurd h0 hc.1)]
        simp only [only_transparent, Option.bind_some]
        rw [hcs, contractEvals_nil]
        refine direct_sample_eq _ i ?_
        rw [hmv]
        simpa [h0] using hidx
      · rw [if_neg (by omega : ¬ st.round = 0)]
        rw [h1 h2n]
        simp only [only_transparent, Option.bind_some]
        have hq : st.query = some ⟨maxQ f ms, cs⟩ := by
          apply hqpos
          right
          exact ⟨m, hm, by omega⟩
        refine subcube_inner_product_eq st _ hq m i ?_ ?_
        · show cs.length <= m.nVars
          omega
        · show 2 * i + 1 < 2 ^ (m.nVars - cs.length)
          rw [hmv]
          exact hidx
    | true =>
      -- heterogeneous dispatch
      simp only [ProverState.chooseEval01, hT, hF]
      by_cases hc : cs.length ≠ 0 ∧ f m.extDeg ≤ cs.length
      · have hop : opAfter f n cs m =
            SumcheckMultilinear.folded
              { nVars := n - cs.length, extDeg := m.extDeg
                evals := contractEvals m.evals cs } := by
          unfold opAfter
          rw [if_pos hc]
        rw [hop]
        refine direct_sample_eq _ i ?_
        exact hidx
      · rw [h1 hc]
        have hq : st.query = some ⟨maxQ f ms, cs⟩ := by
          apply hqpos
          rw [hml, List.any_eq_true] at hT hF
          obtain ⟨x1, hx1, hxt⟩ := hT
          obtain ⟨x2, hx2, hxf⟩ := hF
          obtain ⟨mt, hmt, rfl⟩ := List.mem_map.mp hx1
          obtain ⟨mf, hmf, rfl⟩ := List.mem_map.mp hx2
          rw [isTransparent_opAfter] at hxt
          rw [isFolded_opAfter] at hxf
          have hmtn := of_decide_eq_false (bool_not_eq_true hxt)
          have hmfp := of_decide_eq_true hxf
          right
          exact ⟨mt, hmt, by omega⟩
        refine subcube_inner_product_eq st _ hq m i ?_ ?_
        · show cs.length <= m.nVars
          omega
        · show 2 * i + 1 < 2 ^ (m.nVars - cs.length)
          rw [hmv]
          exact hidx

theorem sum_shape (n : ℕ) (f : ℕ → ℕ) (ms : List (Multilin F)) (cs : List F)
    (ev : Evaluator F) (st : ProverState F) (hms : ∀ m ∈ ms, m.nVars = n)
    (hlt : cs.length < n) (hsh : StateShape n f ms cs st) :
    st.sum_round_evals ev = some (canonicalSum n ms cs ev) := by
  have hr := hsh.1
  have hn := hsh.2.1
  unfold ProverState.sum_round_evals ProverState.sum_round_evals_helper
  rw [hr, hn, if_neg (by omega)]
  simp only
  rw [if_neg (by omega : ¬ n - cs.length = 0)]
  unfold canonicalSum
  apply foldlOpt_eq_some_foldl
  intro acc i hi
  rw [List.mem_range] at hi
  unfold ProverState.vertexStep
  rw [vertexPairs_shape n f ms cs st hms hlt hsh i hi]
  simp [canonEvalsAt, List.map_map, Function.comp_def]

theorem sum_round_evals_none_of_le (st : ProverState F) (ev : Evaluator F)
    (h : st.n_rounds ≤ st.round) : st.sum_round_evals ev = none := by
  unfold ProverState.sum_round_evals ProverState.sum_round_evals_helper
  by_cases h2 : st.n_rounds < st.round
  · rw [if_pos h2]
  · rw [if_neg h2]
    simp only
    rw [if_pos (by omega)]

/-! Concrete material used by the witnesses. -/

/-- Concrete one-variable operand with table 0, 1 (spec scenario S1). -/
def mW : Multilin ℤ := { nVars := 1, extDeg := 4, evals := fun i => (i : ℤ) }

/-- Concrete evaluator with one round evaluation accumulating both samples. -/
def evW : Evaluator ℤ :=
  { n_round_evals := 1
    contribution := fun _ e0 e1 => [e0.getD 0 0 + e1.getD 0 0] }

/-- Throwaway default state for extracting concrete run results. -/
def junkState : ProverState ℤ :=
  { multilinears := [], query := none, round := 0, n_rounds := 0 }

/-- Concrete prover run with switchover constant 1 used in witnesses. -/
def stfW : ProverState ℤ :=
  (newAndFold 1 [mW] (fun _ => 1) [2]).toOption.getD junkState

/-- Concrete prover run with switchover constant 3 used in witnesses. -/
def stgW : ProverState ℤ :=
  (newAndFold 1 [mW] (fun _ => 3) [2]).toOption.getD junkState

/-! The claims. -/

/-- C1: for the same operands and the same challenge sequence, two provers
that differ only in the switchover function return identical vectors from
sum_round_evals at every round, for any fixed evaluator. -/
theorem claim1_switchover_equivalence (n : ℕ) (ms : List (Multilin F))
    (f g : ℕ → ℕ) (cs : List F) (ev : Evaluator F) (stf stg : ProverState F)
    (hms : ∀ m ∈ ms, m.nVars = n) (hle : cs.length ≤ n)
    (hf : newAndFold n ms f cs = .ok stf)
    (hg : newAndFold n ms g cs = .ok stg) :
    stf.sum_round_evals ev = stg.sum_round_evals ev := by
  obtain ⟨st1, h1, hsh1⟩ := reach_shape n f ms hms cs hle
  obtain ⟨st2, h2, hsh2⟩ := reach_shape n g ms hms cs hle
  rw [hf] at h1
  rw [hg] at h2
  cases Except.ok.inj h1
  cases Except.ok.inj h2
  by_cases hlt : cs.length < n
  · rw [sum_shape n f ms cs ev stf hms hlt hsh1,
      sum_shape n g ms cs ev stg hms hlt hsh2]
  · have hf1 : stf.n_rounds ≤ stf.round := by
      rw [hsh1.1, hsh1.2.1]
      omega
    have hg1 : stg.n_rounds ≤ stg.round := by
      rw [hsh2.1, hsh2.2.1]
      omega
    rw [sum_round_evals_none_of_le stf ev hf1,
      sum_round_evals_none_of_le stg ev hg1]

/-- C1 witness: concrete one-variable prover, switchover 1 versus 3, equal
round sums after one fold. -/
theorem claim1_witness : stfW.sum_round_evals evW = stgW.sum_round_evals evW :=
  claim1_switchover_equivalence 1 [mW] (fun _ => 1) (fun _ => 3) [2] evW
    stfW stgW
    (by
      intro m hm
      rw [List.mem_singleton] at hm
      subst hm
      rfl)
    (by decide) rfl rfl

/-- C9: on a reachable state with round < n_rounds, sum_round_evals takes no
failing branch: all hypercube and subcube evaluations are in range and the
query-presence expect is satisfied, so the result is produced. -/
theorem claim9_sum_no_failing_branch (n : ℕ) (ms : List (Multilin F))
    (f : ℕ → ℕ) (cs : List F) (ev : Evaluator F) (st : ProverState F)
    (hms : ∀ m ∈ ms, m.nVars = n) (hlt : cs.length < n)
    (h : newAndFold n ms f cs = .ok st) :
    (st.sum_round_evals ev).isSome = true := by
  obtain ⟨st1, h1, hsh⟩ := reach_shape n f ms hms cs (le_of_lt hlt)
  rw [h] at h1
  cases Except.ok.inj h1
  rw [sum_shape n f ms cs ev st hms hlt hsh]
  rfl

/-- C9 witness: the concrete reachable state of round 0 produces a sum. -/
theorem claim9_witness :
    (((newAndFold 1 [mW] (fun _ => 1) []).toOption.getD
      junkState).sum_round_evals evW).isSome = true :=
  claim9_sum_no_failing_branch 1 [mW] (fun _ => 1) [] evW
    ((newAndFold 1 [mW] (fun _ => 1) []).toOption.getD junkState)
    (by
      intro m hm
      rw [List.mem_singleton] at hm
      subst hm
      rfl)
    (by decide) rfl

/-- C5: at rd_vars = 0 (round = n_rounds) the code does not return the zero
vector of length n_round_evals; the usize expression 1 << (rd_vars - 1)
underflows, which is a panic in a debug build (modelled as none).  The
concrete reachable input: one operand over one variable, folded once, then
sum_round_evals called again. -/
theorem claim5_rd_vars_zero_is_panic :
    stfW.round = stfW.n_rounds ∧
    stfW.sum_round_evals evW = none ∧
    evW.n_round_evals = 1 := ⟨rfl, rfl, rfl⟩

/-- C4 (amended): the tensor query is Some iff at least one operand is
Transparent, in every state reachable from a construction with a nonempty
operand list; a prover constructed over zero operands starts with a Some
query and no Transparent operand. -/
theorem claim4_tensor_lifecycle (n : ℕ) (ms : List (Multilin F))
    (f : ℕ → ℕ) (cs : List F) (st : ProverState F)
    (hms : ∀ m ∈ ms, m.nVars = n) (hne : ms ≠ []) (hle : cs.length ≤ n)
    (h : newAndFold n ms f cs = .ok st) :
    st.query.isSome = true ↔
      st.multilinears.any SumcheckMultilinear.isTransparent = true := by
  obtain ⟨st1, h1, hsh⟩ := reach_shape n f ms hms cs hle
  rw [h] at h1
  cases Except.ok.inj h1
  obtain ⟨hr, hn, hml, hqpos, hqneg⟩ := hsh
  by_cases hP : cs.length = 0 ∨ ∃ m ∈ ms, cs.length < f m.extDeg
  · rw [hqpos hP, hml]
    simp only [Option.isSome_some, true_iff]
    apply List.any_eq_true.mpr
    rcases hP with h0 | ⟨m, hm, hsw⟩
    · obtain ⟨m0, hm0⟩ := List.exists_mem_of_ne_nil ms hne
      refine ⟨opAfter f n cs m0, List.mem_map_of_mem _ hm0, ?_⟩
      rw [isTransparent_opAfter, decide_eq_false (fun hc => hc.1 h0)]
      rfl
    · refine ⟨opAfter f n cs m, List.mem_map_of_mem _ hm, ?_⟩
      rw [isTransparent_opAfter, decide_eq_false (fun hc => by omega)]
      rfl
  · rw [hqneg hP, hml]
    push_neg at hP
    obtain ⟨h0, hall⟩ := hP
    have hany : (ms.map (opAfter f n cs)).any
        SumcheckMultilinear.isTransparent = false := by
      rw [List.any_eq_false]
      intro x hx
      obtain ⟨m, hm, rfl⟩ := List.mem_map.mp hx
      rw [isTransparent_opAfter,
        decide_eq_true ⟨h0, Nat.not_lt.mp (by have := hall m hm; omega)⟩]
      simp
    rw [hany]
    simp

/-- C4 witness: on the concrete one-operand state after its only fold, the
query is gone and no transparent operand remains, matching the iff. -/
theorem claim4_witness :
    stfW.query.isSome = true ↔
      stfW.multilinears.any SumcheckMultilinear.isTransparent = true :=
  claim4_tensor_lifecycle 1 [mW] (fun _ => 1) [2] stfW
    (by
      intro m hm
      rw [List.mem_singleton] at hm
      subst hm
      rfl)
    (List.cons_ne_nil _ _) (by decide) rfl

/-- State constructed over the empty operand list: the C4 counterexample. -/
def c4State : ProverState ℤ :=
  { multilinears := [], query := some ⟨1, []⟩, round := 0, n_rounds := 0 }

/-- C4 counterexample: a prover constructed with zero operands is reachable,
its tensor query is Some, yet no operand (in particular no Transparent
operand) exists, refuting the iff as stated for every reachable state. -/
theorem claim4_counterexample :
    ProverState.new 0 ([] : List (Multilin ℤ)) (fun _ => 1) = .ok c4State ∧
    c4State.query.isSome = true ∧
    c4State.multilinears.any SumcheckMultilinear.isTransparent = false :=
  ⟨rfl, rfl, rfl⟩

/-- C6 (amended): the round counter starts at 0 on construction, each
successful fold call increments it by exactly one, and when the caller
performs at most n_rounds folds the counter equals the number of folds and
stays at most n_rounds.  fold itself performs no round < n_rounds assertion
at entry, so calling it more than n_rounds times is not detected there. -/
theorem claim6_round_counter (n : ℕ) (ms : List (Multilin F)) (f : ℕ → ℕ)
    (cs : List F) (st0 st s s2 : ProverState F) (c : F)
    (hms : ∀ m ∈ ms, m.nVars = n) (hle : cs.length ≤ n)
    (hnew : ProverState.new n ms f = .ok st0)
    (hfold : s.fold c = .ok s2)
    (hreach : newAndFold n ms f cs = .ok st) :
    st0.round = 0 ∧ s2.round = s.round + 1 ∧
    st.round = cs.length ∧ st.round ≤ n := by
  refine ⟨?_, ?_, ?_, ?_⟩
  · rw [new_ok n f ms hms] at hnew
    cases Except.ok.inj hnew
    rfl
  · unfold ProverState.fold at hfold
    repeat' split at hfold
    all_goals try exact Except.noConfusion hfold
    all_goals
      cases Except.ok.inj hfold
      rfl
  · obtain ⟨st1, h1, hsh⟩ := reach_shape n f ms hms cs hle
    rw [hreach] at h1
    cases Except.ok.inj h1
    exact hsh.1
  · obtain ⟨st1, h1, hsh⟩ := reach_shape n f ms hms cs hle
    rw [hreach] at h1
    cases Except.ok.inj h1
    rw [hsh.1]
    exact hle

/-- C6 witness: concrete construction and one fold on the one-variable
operand. -/
theorem claim6_witness :
    ((ProverState.new 1 [mW] (fun _ => 1)).toOption.getD junkState).round = 0 ∧
    stfW.round = 1 := by
  have h := claim6_round_counter 1 [mW] (fun _ => 1) [2]
    ((ProverState.new 1 [mW] (fun _ => 1)).toOption.getD junkState) stfW
    ((ProverState.new 1 [mW] (fun _ => 1)).toOption.getD junkState) stfW 2
    (by
      intro m hm
      rw [List.mem_singleton] at hm
      subst hm
      rfl)
    (by decide) rfl rfl rfl
  refine ⟨h.1, ?_⟩
  rw [h.2.2.1]
  rfl

/-- Freshly constructed zero-round prover, at round = n_rounds already. -/
def c6State0 : ProverState ℤ :=
  { multilinears := [], query := some ⟨1, []⟩, round := 0, n_rounds := 0 }

/-- The same prover after one extra fold that the claimed assertion should
have rejected. -/
def c6State1 : ProverState ℤ :=
  { multilinears := [], query := none, round := 1, n_rounds := 0 }

/-- C6 counterexample: with round = n_rounds = 0, fold succeeds (no
assertion fires) and leaves round = 1 > n_rounds, refuting both the claimed
entry guard and the claimed round ≤ n_rounds invariant for arbitrarily many
fold calls. -/
theorem claim6_counterexample :
    ProverState.new 0 ([] : List (Multilin ℤ)) (fun _ => 1) = .ok c6State0 ∧
    c6State0.round = c6State0.n_rounds ∧
    c6State0.fold 7 = .ok c6State1 ∧
    c6State1.round = 1 ∧
    c6State1.n_rounds = 0 := ⟨rfl, rfl, rfl, rfl, rfl⟩

theorem foldMultilins_elements (q : Option (MultilinearQuery F))
    (pq : MultilinearQuery F) (round : ℕ) :
    ∀ (mls mls2 : List (SumcheckMultilinear F)) (flag : Bool),
      foldMultilins q pq round mls = .ok (mls2, flag) →
      mls2.length = mls.length ∧
      ∀ (j : ℕ) (ml : SumcheckMultilinear F), mls[j]? = some ml →
        ((∀ sw small, ml = SumcheckMultilinear.transparent sw small →
          (sw ≤ round →
            ∃ qq lf, q = some qq ∧ small.evaluate_partial_low qq = some lf ∧
              mls2[j]? = some (.folded lf)) ∧
          (round < sw → mls2[j]? = some (.transparent sw small))) ∧
        (∀ lf, ml = SumcheckMultilinear.folded lf →
          ∃ lf2, lf.evaluate_partial_low pq = some lf2 ∧
            mls2[j]? = some (.folded lf2))) := by
  intro mls
  induction mls with
  | nil =>
    intro mls2 flag h
    have h2 : (Except.ok (([] : List (SumcheckMultilinear F)), false) :
        Except SCError _) = Except.ok (mls2, flag) := h
    cases Except.ok.inj h2
    refine ⟨rfl, ?_⟩
    intro j ml hj
    simp at hj
  | cons ml0 rest ih =>
    intro mls2 flag h
    cases ml0 with
    | transparent sw0 small0 =>
      simp only [foldMultilins] at h
      by_cases hsw : sw0 ≤ round
      · rw [if_pos hsw] at h
        cases hq : q with
        | none =>
          simp only [hq] at h
          exact Except.noConfusion h
        | some qq =>
          simp only [hq] at h
          cases hpl : small0.evaluate_partial_low qq with
          | none =>
            simp only [hpl] at h
            exact Except.noConfusion h
          | some lf =>
            simp only [hpl] at h
            cases hrec : foldMultilins q pq round rest with
            | error e =>
              rw [hq] at hrec
              simp only [hrec] at h
              exact Except.noConfusion h
            | ok pr =>
              obtain ⟨rest2, flag2⟩ := pr
              rw [hq] at hrec
              simp only [hrec, Except.ok.injEq, Prod.mk.injEq] at h
              obtain ⟨hm, hf⟩ := h
              subst hm
              subst hf
              obtain ⟨ihlen, ihel⟩ := ih rest2 flag2 (by rw [hq]; exact hrec)
              refine ⟨by simp [ihlen], ?_⟩
              intro j ml hj
              cases j with
              | zero =>
                simp only [List.getElem?_cons_zero] at hj
                cases Option.some.inj hj
                refine ⟨?_, ?_⟩
                · intro sw small heq
                  cases heq
                  refine ⟨fun _ => ⟨qq, lf, rfl, hpl, by simp⟩, fun hc => ?_⟩
                  omega
                · intro lf2 heq
                  exact SumcheckMultilinear.noConfusion heq
              | succ j2 =>
                simp only [List.getElem?_cons_succ] at hj ⊢
                have hrest := ihel j2 ml hj
                rw [hq] at hrest
                exact hrest
      · rw [if_neg hsw] at h
        cases hrec : foldMultilins q pq round rest with
        | error e =>
          simp only [hrec] at h
          exact Except.noConfusion h
        | ok pr =>
          obtain ⟨rest2, flag2⟩ := pr
          simp only [hrec, Except.ok.injEq, Prod.mk.injEq] at h
          obtain ⟨hm, hf⟩ := h
          subst hm
          subst hf
          obtain ⟨ihlen, ihel⟩ := ih rest2 flag2 hrec
          refine ⟨by simp [ihlen], ?_⟩
          intro j ml hj
          cases j with
          | zero =>
            simp only [List.getElem?_cons_zero] at hj
            cases Option.some.inj hj
            refine ⟨?_, ?_⟩
            · intro sw small heq
              cases heq
              exact ⟨fun hc => absurd hc hsw, fun _ => by simp⟩
            · intro lf2 heq
              exact SumcheckMultilinear.noConfusion heq
          | succ j2 =>
            simp only [List.getElem?_cons_succ] at hj ⊢
            exact ihel j2 ml hj
    | folded lf0 =>
      simp only [foldMultilins] at h
      cases hpl : lf0.evaluate_partial_low pq with
      | none =>
        simp only [hpl] at h
        exact Except.noConfusion h
      | some lf2 =>
        simp only [hpl] at h
        cases hrec : foldMultilins q pq round rest with
        | error e =>
          simp only [hrec] at h
          exact Except.noConfusion h
        | ok pr =>
          obtain ⟨rest2, flag2⟩ := pr
          simp only [hrec, Except.ok.injEq, Prod.mk.injEq] at h
          obtain ⟨hm, hf⟩ := h
          subst hm
          subst hf
          obtain ⟨ihlen, ihel⟩ := ih rest2 flag2 hrec
          refine ⟨by simp [ihlen], ?_⟩
          intro j ml hj
          cases j with
          | zero =>
            simp only [List.getElem?_cons_zero] at hj
            cases Option.some.inj hj
            refine ⟨?_, ?_⟩
            · intro sw small heq
              exact SumcheckMultilinear.noConfusion heq
            · intro lf3 heq
              cases heq
              exact ⟨lf2, hpl, by simp⟩
          | succ j2 =>
            simp only [List.getElem?_cons_succ] at hj ⊢
            exact ihel j2 ml hj

/-- C2: fold(c) increments the round, extends the tensor query by c before
any switchover (a switching operand contracts against the updated query),
leaves a transparent operand whose switchover is still ahead unchanged, and
halves a folded operand against the one-variable query whose tensor
expansion is [1 - c, c]. -/
theorem claim2_fold_behavior (s s2 : ProverState F) (c : F)
    (h : s.fold c = .ok s2) :
    s2.round = s.round + 1 ∧
    tensorElem [c] 0 = 1 - c ∧
    tensorElem [c] 1 = c ∧
    s2.multilinears.length = s.multilinears.length ∧
    ∀ (j : ℕ) (ml : SumcheckMultilinear F), s.multilinears[j]? = some ml →
      ((∀ sw small, ml = SumcheckMultilinear.transparent sw small →
        (sw ≤ s.round + 1 →
          ∃ q q2 lf, s.query = some q ∧ q.update [c] = some q2 ∧
            small.evaluate_partial_low q2 = some lf ∧
            s2.multilinears[j]? = some (.folded lf)) ∧
        (s.round + 1 < sw →
          s2.multilinears[j]? = some (.transparent sw small))) ∧
      (∀ lf, ml = SumcheckMultilinear.folded lf →
        ∃ lf2, lf.evaluate_partial_low (MultilinearQuery.with_full_query [c])
            = some lf2 ∧
          s2.multilinears[j]? = some (.folded lf2))) := by
  have htens0 : tensorElem [c] 0 = 1 - c := by
    norm_num [tensorElem]
  have htens1 : tensorElem [c] 1 = c := by
    norm_num [tensorElem]
  unfold ProverState.fold at h
  cases hq : s.query with
  | some q =>
    simp only [hq] at h
    cases hu : q.update [c] with
    | none =>
      simp only [hu] at h
      exact Except.noConfusion h
    | some q2 =>
      simp only [hu] at h
      cases hfm : foldMultilins (some q2)
          (MultilinearQuery.with_full_query [c]) (s.round + 1)
          s.multilinears with
      | error e =>
        simp only [hfm] at h
        exact Except.noConfusion h
      | ok pr =>
        obtain ⟨mls2, fl⟩ := pr
        simp only [hfm] at h
        have hs2 := Except.ok.inj h
        subst hs2
        obtain ⟨hlen, helem⟩ :=
          foldMultilins_elements (some q2)
            (MultilinearQuery.with_full_query [c]) (s.round + 1)
            s.multilinears mls2 fl hfm
        refine ⟨rfl, htens0, htens1, hlen, ?_⟩
        intro j ml hj
        obtain ⟨ht, hfo⟩ := helem j ml hj
        refine ⟨?_, hfo⟩
        intro sw small heq
        refine ⟨?_, (ht sw small heq).2⟩
        intro hsw
        obtain ⟨qq, lf, hqq, hpl, hres⟩ := (ht sw small heq).1 hsw
        cases Option.some.inj hqq
        exact ⟨q, q2, lf, rfl, hu, hpl, hres⟩
  | none =>
    simp only [hq] at h
    cases hfm : foldMultilins none
        (MultilinearQuery.with_full_query [c]) (s.round + 1)
        s.multilinears with
    | error e =>
      simp only [hfm] at h
      exact Except.noConfusion h
    | ok pr =>
      obtain ⟨mls2, fl⟩ := pr
      simp only [hfm] at h
      have hs2 := Except.ok.inj h
      subst hs2
      obtain ⟨hlen, helem⟩ :=
        foldMultilins_elements none
          (MultilinearQuery.with_full_query [c]) (s.round + 1)
          s.multilinears mls2 fl hfm
      refine ⟨rfl, htens0, htens1, hlen, ?_⟩
      intro j ml hj
      obtain ⟨ht, hfo⟩ := helem j ml hj
      refine ⟨?_, hfo⟩
      intro sw small heq
      refine ⟨?_, (ht sw small heq).2⟩
      intro hsw
      obtain ⟨qq, lf, hqq, hpl, hres⟩ := (ht sw small heq).1 hsw
      exact Option.noConfusion hqq

/-- Concrete fresh one-variable prover used by witnesses. -/
def stnW : ProverState ℤ :=
  (ProverState.new 1 [mW] (fun _ => 1)).toOption.getD junkState

/-- C2 witness: one concrete fold on the one-variable operand increments
the round. -/
theorem claim2_witness : stfW.round = stnW.round + 1 :=
  (claim2_fold_behavior stnW stfW 2 rfl).1

theorem mkMultilinears_char (n : ℕ) (f : ℕ → ℕ) :
    ∀ (ms : List (Multilin F)) (acc : ℕ),
      mkMultilinears n f ms acc =
        match ms.find? (fun m => m.nVars != n) with
        | some m => .error (.incorrectNumberOfVariables n m.nVars)
        | none => .ok (ms.map fun m => .transparent (f m.extDeg) m,
            ms.foldl (fun a m => max a (f m.extDeg)) acc) := by
  intro ms
  induction ms with
  | nil =>
    intro acc
    rfl
  | cons m t ih =>
    intro acc
    by_cases hm : m.nVars = n
    · simp only [mkMultilinears]
      rw [if_neg (not_not_intro hm), ih (max acc (f m.extDeg)),
        List.find?_cons_of_neg _ (by simp [hm])]
      cases t.find? (fun m2 => m2.nVars != n) with
      | some mbad => rfl
      | none => rfl
    · simp only [mkMultilinears]
      rw [if_pos hm, List.find?_cons_of_pos _ (by simp [hm])]

theorem foldl_max_eq_foldr (f : ℕ → ℕ) (ms : List (Multilin F)) :
    ∀ acc : ℕ,
      ms.foldl (fun a m => max a (f m.extDeg)) acc =
        max acc ((ms.map fun m => f m.extDeg).foldr max 0) := by
  induction ms with
  | nil =>
    intro acc
    simp
  | cons m t ih =>
    intro acc
    simp only [List.foldl_cons, List.map_cons, List.foldr_cons]
    rw [ih (max acc (f m.extDeg)), max_assoc]

/-- C7: ProverState::new fails with IncorrectNumberOfVariables exactly when
some operand arity differs from n_rounds, reporting expected = n_rounds and
actual = the first offending operand arity; on success the state is fresh
(round 0) and the tensor query is allocated sized to
max(1, max over operands of switchover_fn(extension_degree)).  On the error
path the function returns before the query is built (the error
short-circuits construction). -/
theorem claim7_new_validation (n : ℕ) (ms : List (Multilin F)) (f : ℕ → ℕ) :
    ((∃ e, ProverState.new n ms f = .error e) ↔ ∃ m ∈ ms, m.nVars ≠ n) ∧
    (∀ m, ms.find? (fun m2 => m2.nVars != n) = some m →
      ProverState.new n ms f = .error (.incorrectNumberOfVariables n m.nVars)) ∧
    (∀ st, ProverState.new n ms f = .ok st →
      st.round = 0 ∧
      st.query = some (MultilinearQuery.new
        (max 1 ((ms.map fun m => f m.extDeg).foldr max 0)))) := by
  unfold ProverState.new
  rw [mkMultilinears_char n f ms 1]
  cases hfind : ms.find? (fun m2 => m2.nVars != n) with
  | some m0 =>
    refine ⟨?_, ?_, ?_⟩
    · constructor
      · intro _
        refine ⟨m0, List.mem_of_find?_eq_some hfind, ?_⟩
        have := List.find?_some hfind
        simpa using this
      · intro _
        exact ⟨_, rfl⟩
    · intro m hm
      cases Option.some.inj hm
      rfl
    · intro st hst
      exact absurd hst (by simp)
  | none =>
    refine ⟨?_, ?_, ?_⟩
    · constructor
      · intro ⟨e, he⟩
        exact absurd he (by simp)
      · intro ⟨m, hm, hmn⟩
        have := List.find?_eq_none.mp hfind m hm
        simp at this
        exact absurd this hmn
    · intro m hm
      exact Option.noConfusion hm
    · intro st hst
      have hs := Except.ok.inj hst
      subst hs
      refine ⟨rfl, ?_⟩
      rw [foldl_max_eq_foldr f ms 1]

/-- C7 witness: a two-variable operand rejected by a one-round prover with
the exact error payload, and the accepted construction carrying the query
sized by the switchover function. -/
theorem claim7_witness :
    ProverState.new 1 [{ nVars := 2, extDeg := 4, evals := fun i => (i : ℤ) }]
        (fun _ => 1) =
      .error (.incorrectNumberOfVariables 1 2) :=
  (claim7_new_validation 1
    [{ nVars := 2, extDeg := 4, evals := fun i => (i : ℤ) }]
    (fun _ => 1)).2.1
    { nVars := 2, extDeg := 4, evals := fun i => (i : ℤ) } rfl

/-- Fresh prover with a constant switchover value, as produced by new with
switchover_fn constant k (the tensor query is sized max(1, k)). -/
def proverConstSw (k n : ℕ) (ms : List (Multilin F)) : ProverState F :=
  { multilinears := ms.map fun m => .transparent k m
    query := some ⟨1, []⟩
    round := 0
    n_rounds := n }

theorem maxQ_const_le_one (k : ℕ) (hk : k ≤ 1) (ms : List (Multilin F)) :
    maxQ (fun _ => k) ms = 1 := by
  unfold maxQ
  induction ms with
  | nil => rfl
  | cons m t ih =>
    simp only [List.foldl_cons]
    rw [show max 1 k = 1 by omega]
    exact ih

theorem foldMultilins_transparent_const (q : Option (MultilinearQuery F))
    (pq : MultilinearQuery F) (k1 k2 : ℕ) (hk1 : k1 ≤ 1) (hk2 : k2 ≤ 1)
    (ms : List (Multilin F)) :
    foldMultilins q pq 1 (ms.map fun m => .transparent k1 m) =
      foldMultilins q pq 1 (ms.map fun m => .transparent k2 m) := by
  induction ms with
  | nil => rfl
  | cons m t ih =>
    simp only [List.map_cons, foldMultilins]
    rw [if_pos hk1, if_pos hk2, ih]

theorem foldMultilins_all_switched (q : Option (MultilinearQuery F))
    (pq : MultilinearQuery F) (round : ℕ) :
    ∀ (mls mls2 : List (SumcheckMultilinear F)) (flag : Bool),
      (∀ ml ∈ mls, ∀ sw small,
        ml = SumcheckMultilinear.transparent sw small → sw ≤ round) →
      foldMultilins q pq round mls = .ok (mls2, flag) →
      mls2.all SumcheckMultilinear.isFolded = true ∧ flag = false := by
  intro mls
  induction mls with
  | nil =>
    intro mls2 flag _ h
    have h2 : (Except.ok (([] : List (SumcheckMultilinear F)), false) :
        Except SCError _) = Except.ok (mls2, flag) := h
    cases Except.ok.inj h2
    exact ⟨rfl, rfl⟩
  | cons ml0 rest ih =>
    intro mls2 flag hall h
    cases ml0 with
    | transparent sw0 small0 =>
      simp only [foldMultilins] at h
      rw [if_pos (hall _ (by simp) sw0 small0 rfl)] at h
      cases hq : q with
      | none =>
        simp only [hq] at h
        exact Except.noConfusion h
      | some qq =>
        simp only [hq] at h
        cases hpl : small0.evaluate_partial_low qq with
        | none =>
          simp only [hpl] at h
          exact Except.noConfusion h
        | some lf =>
          simp only [hpl] at h
          cases hrec : foldMultilins q pq round rest with
          | error e =>
            rw [hq] at hrec
            simp only [hrec] at h
            exact Except.noConfusion h
          | ok pr =>
            obtain ⟨rest2, flag2⟩ := pr
            rw [hq] at hrec
            simp only [hrec, Except.ok.injEq, Prod.mk.injEq] at h
            obtain ⟨hm, hf⟩ := h
            subst hm
            subst hf
            obtain ⟨ha, hf2⟩ := ih rest2 flag2
              (fun ml hml sw small heq => hall ml (by simp [hml]) sw small heq)
              (by rw [hq]; exact hrec)
            subst hf2
            refine ⟨?_, rfl⟩
            simp [List.all_cons, SumcheckMultilinear.isFolded, ha]
    | folded lf0 =>
      simp only [foldMultilins] at h
      cases hpl : lf0.evaluate_partial_low pq with
      | none =>
        simp only [hpl] at h
        exact Except.noConfusion h
      | some lf2 =>
        simp only [hpl] at h
        cases hrec : foldMultilins q pq round rest with
        | error e =>
          simp only [hrec] at h
          exact Except.noConfusion h
        | ok pr =>
          obtain ⟨rest2, flag2⟩ := pr
          simp only [hrec, Except.ok.injEq, Prod.mk.injEq] at h
          obtain ⟨hm, hf⟩ := h
          subst hm
          subst hf
          obtain ⟨ha, hf2⟩ := ih rest2 flag2
            (fun ml hml sw small heq => hall ml (by simp [hml]) sw small heq)
            hrec
          subst hf2
          refine ⟨?_, rfl⟩
          simp [List.all_cons, SumcheckMultilinear.isFolded, ha]

/-- C10: a switchover_fn returning 0 is accepted by ProverState::new, the
tensor query is still allocated with capacity 1 (at least one variable),
and the prover behaves exactly like one built with switchover_fn constant
1: same round-0 sums, identical fold outcome, and in both cases every
operand switches over at the first fold (switchover ≤ round holds at round
1 for both 0 and 1), releasing the tensor. -/
theorem claim10_switchover_zero (n : ℕ) (ms : List (Multilin F)) (c : F)
    (ev : Evaluator F) (hms : ∀ m ∈ ms, m.nVars = n) :
    ProverState.new n ms (fun _ => 0) = .ok (proverConstSw 0 n ms) ∧
    ProverState.new n ms (fun _ => 1) = .ok (proverConstSw 1 n ms) ∧
    (proverConstSw 0 n ms).sum_round_evals ev =
      (proverConstSw 1 n ms).sum_round_evals ev ∧
    (proverConstSw 0 n ms).fold c = (proverConstSw 1 n ms).fold c ∧
    (∀ st2, (proverConstSw 0 n ms).fold c = .ok st2 →
      st2.multilinears.all SumcheckMultilinear.isFolded = true ∧
      st2.query = none) := by
  have h0eq : ProverState.new n ms (fun _ => 0) = .ok (proverConstSw 0 n ms) := by
    rw [new_ok n (fun _ => 0) ms hms, maxQ_const_le_one 0 (by omega) ms]
    rfl
  have h1eq : ProverState.new n ms (fun _ => 1) = .ok (proverConstSw 1 n ms) := by
    rw [new_ok n (fun _ => 1) ms hms, maxQ_const_le_one 1 (by omega) ms]
    rfl
  have hsum : (proverConstSw 0 n ms).sum_round_evals ev =
      (proverConstSw 1 n ms).sum_round_evals ev := by
    by_cases hn : 0 < n
    · obtain ⟨stA, hA, hshA⟩ := new_shape n (fun _ => 0) ms hms
      rw [h0eq] at hA
      cases Except.ok.inj hA
      obtain ⟨stB, hB, hshB⟩ := new_shape n (fun _ => 1) ms hms
      rw [h1eq] at hB
      cases Except.ok.inj hB
      rw [sum_shape n (fun _ => 0) ms [] ev _ hms (by simpa using hn) hshA,
        sum_shape n (fun _ => 1) ms [] ev _ hms (by simpa using hn) hshB]
    · rw [sum_round_evals_none_of_le _ ev (show n ≤ 0 by omega),
        sum_round_evals_none_of_le _ ev (show n ≤ 0 by omega)]
  have hfoldeq : (proverConstSw 0 n ms).fold c =
      (proverConstSw 1 n ms).fold c := by
    show (match foldMultilins (some ⟨1, [c]⟩)
        (MultilinearQuery.with_full_query [c]) 1
        (ms.map fun m => .transparent 0 m) with
      | .error e => (.error e : Except SCError (ProverState F))
      | .ok (mls, fl) =>
        .ok { multilinears := mls
              query := if fl = true then some ⟨1, [c]⟩ else none
              round := 1
              n_rounds := n }) =
      (match foldMultilins (some ⟨1, [c]⟩)
        (MultilinearQuery.with_full_query [c]) 1
        (ms.map fun m => .transparent 1 m) with
      | .error e => .error e
      | .ok (mls, fl) =>
        .ok { multilinears := mls
              query := if fl = true then some ⟨1, [c]⟩ else none
              round := 1
              n_rounds := n })
    rw [foldMultilins_transparent_const (some ⟨1, [c]⟩)
      (MultilinearQuery.with_full_query [c]) 0 1 (by omega) (by omega) ms]
  refine ⟨h0eq, h1eq, hsum, hfoldeq, ?_⟩
  intro st2 hst2
  have h2 : (match foldMultilins (some ⟨1, [c]⟩)
      (MultilinearQuery.with_full_query [c]) 1
      (ms.map fun m => .transparent 0 m) with
    | .error e => (.error e : Except SCError (ProverState F))
    | .ok (mls, fl) =>
      .ok { multilinears := mls
            query := if fl = true then some ⟨1, [c]⟩ else none
            round := 1
            n_rounds := n }) = .ok st2 := hst2
  cases hfm : foldMultilins (some ⟨1, [c]⟩)
      (MultilinearQuery.with_full_query [c]) 1
      (ms.map fun m => .transparent 0 m) with
  | error e =>
    simp only [hfm] at h2
    exact Except.noConfusion h2
  | ok pr =>
    obtain ⟨mls2, fl⟩ := pr
    simp only [hfm] at h2
    have hs := Except.ok.inj h2
    subst hs
    obtain ⟨hall, hfl⟩ := foldMultilins_all_switched (some ⟨1, [c]⟩)
      (MultilinearQuery.with_full_query [c]) 1 _ mls2 fl
      (fun ml hml sw small heq => by
        obtain ⟨m, hm, rfl⟩ := List.mem_map.mp hml
        cases heq
        omega)
      hfm
    subst hfl
    exact ⟨hall, rfl⟩

/-- C10 witness: the concrete one-variable prover folds identically whether
built with switchover 0 or switchover 1. -/
theorem claim10_witness :
    (proverConstSw 0 1 [mW]).fold 3 = (proverConstSw 1 1 [mW]).fold 3 :=
  (claim10_switchover_zero 1 [mW] 3 evW
    (by
      intro m hm
      rw [List.mem_singleton] at hm
      subst hm
      rfl)).2.2.2.1

/-! Vector algebra for the partitioned reduction (C8). -/

theorem getD_addVec (a : List F) :
    ∀ (b : List F), a.length = b.length → ∀ i : ℕ,
      (addVec a b).getD i 0 = a.getD i 0 + b.getD i 0 := by
  induction a with
  | nil =>
    intro b h i
    have hb : b = [] := List.length_eq_zero.mp (by simpa using h.symm)
    subst hb
    simp [addVec]
  | cons x xs ih =>
    intro b h i
    cases b with
    | nil => simp at h
    | cons y ys =>
      cases i with
      | zero => simp [addVec]
      | succ i2 =>
        simp only [addVec, List.zipWith_cons_cons, List.getD_cons_succ]
        exact ih ys (by simpa using h) i2

theorem length_addVec (a b : List F) :
    (addVec a b).length = min a.length b.length := by
  simp [addVec]

theorem getD_replicate_zero (n i : ℕ) :
    (List.replicate n (0 : F)).getD i 0 = 0 := by
  cases Nat.lt_or_ge i n with
  | inl h =>
    rw [List.getD_eq_getElem _ _ (by simpa using h)]
    simp
  | inr h =>
    rw [List.getD_eq_default _ _ (by simpa using h)]

theorem length_foldl_addVec (parts : List (List F)) :
    ∀ z : List F, (∀ p ∈ parts, p.length = z.length) →
      (parts.foldl addVec z).length = z.length := by
  induction parts with
  | nil =>
    intro z _
    rfl
  | cons p ps ih =>
    intro z hall
    simp only [List.foldl_cons]
    have h1 : (addVec z p).length = z.length := by
      rw [length_addVec, hall p (by simp)]
      simp
    rw [ih (addVec z p) (fun p2 hp2 => by rw [h1]; exact hall p2 (by simp [hp2])),
      h1]

theorem getD_foldl_addVec (parts : List (List F)) :
    ∀ (z : List F) (i : ℕ), (∀ p ∈ parts, p.length = z.length) →
      (parts.foldl addVec z).getD i 0 =
        z.getD i 0 + (parts.map fun p => p.getD i 0).sum := by
  induction parts with
  | nil =>
    intro z i _
    simp
  | cons p ps ih =>
    intro z i hall
    simp only [List.foldl_cons, List.map_cons, List.sum_cons]
    have h1 : (addVec z p).length = z.length := by
      rw [length_addVec, hall p (by simp)]
      simp
    rw [ih (addVec z p) i
      (fun p2 hp2 => by rw [h1]; exact hall p2 (by simp [hp2]))]
    rw [getD_addVec z p (hall p (by simp)).symm i]
    ring

theorem list_ext_getD (a b : List F) (h : a.length = b.length)
    (h2 : ∀ i, a.getD i 0 = b.getD i 0) : a = b := by
  apply List.ext_getElem h
  intro i hi1 hi2
  have h3 := h2 i
  rwa [List.getD_eq_getElem _ _ hi1, List.getD_eq_getElem _ _ hi2] at h3

theorem mapOpt_eq_none_of_mem {α β : Type} (g : α → Option β) :
    ∀ (l : List α) (a : α), a ∈ l → g a = none → mapOpt g l = none := by
  intro l
  induction l with
  | nil =>
    intro a ha _
    simp at ha
  | cons x xs ih =>
    intro a ha hga
    rcases List.mem_cons.mp ha with h | h
    · subst h
      simp [mapOpt, hga]
    · cases hgx : g x with
      | none => simp [mapOpt, hgx]
      | some b => simp [mapOpt, hgx, ih a h hga]

/-- Per-vertex contribution vector computed by the fold closure: the
operand samples at vertex i fed to the evaluator. -/
def ProverState.vertexContribution (s : ProverState F) (ev : Evaluator F)
    (i : ℕ) : Option (List F) :=
  (s.vertexPairs s.chooseEval01 i).map fun ps =>
    ev.contribution i (ps.map Prod.fst) (ps.map Prod.snd)

/-- Per-vertex contribution with a zero-vector default, so its length is
always the evaluator's round evaluation count. -/
def ProverState.vertexVal (s : ProverState F) (ev : Evaluator F) (i : ℕ) :
    List F :=
  (s.vertexContribution ev i).getD (List.replicate ev.n_round_evals 0)

theorem vertexStep_eq (s : ProverState F) (ev : Evaluator F) (acc : List F)
    (i : ℕ) :
    s.vertexStep s.chooseEval01 ev acc i =
      (s.vertexContribution ev i).map fun v => addVec acc v := by
  unfold ProverState.vertexStep ProverState.vertexContribution
  rw [Option.map_map]
  rfl

theorem vertexVal_length (s : ProverState F) (ev : Evaluator F)
    (hlen : ∀ i2 e0 e1, (ev.contribution i2 e0 e1).length =
      ev.n_round_evals) (i : ℕ) :
    (s.vertexVal ev i).length = ev.n_round_evals := by
  unfold ProverState.vertexVal ProverState.vertexContribution
  cases hvp : s.vertexPairs s.chooseEval01 i with
  | none => simp
  | some ps =>
    simp only [Option.map_some', Option.getD_some]
    exact hlen i _ _

/-- Pure reduction lemma: for equal-length value vectors, folding the
chunked partial sums equals folding the flattened index list, whenever the
chunk concatenation is a permutation of it. -/
theorem foldl_addVec_perm_chunks (L : ℕ) (vals : ℕ → List F)
    (hv : ∀ i, (vals i).length = L) (chunks : List (List ℕ))
    (rng : List ℕ) (hperm : chunks.flatten.Perm rng) :
    (chunks.map fun ch =>
        ch.foldl (fun acc i => addVec acc (vals i))
          (List.replicate L 0)).foldl
      addVec (List.replicate L 0) =
      rng.foldl (fun acc i => addVec acc (vals i)) (List.replicate L 0) := by
  have hlen1 : ∀ l : List ℕ,
      (l.foldl (fun acc i => addVec acc (vals i))
        (List.replicate L 0)).length = L := by
    intro l
    rw [← List.foldl_map vals addVec,
      length_foldl_addVec _ _
        (fun p hp => by
          obtain ⟨i, _, rfl⟩ := List.mem_map.mp hp
          rw [List.length_replicate]
          exact hv i),
      List.length_replicate]
  have hgetD1 : ∀ (l : List ℕ) (k : ℕ),
      (l.foldl (fun acc i => addVec acc (vals i))
        (List.replicate L 0)).getD k 0 =
        (l.map fun i => (vals i).getD k 0).sum := by
    intro l k
    rw [← List.foldl_map vals addVec,
      getD_foldl_addVec _ _ k
        (fun p hp => by
          obtain ⟨i, _, rfl⟩ := List.mem_map.mp hp
          rw [List.length_replicate]
          exact hv i),
      getD_replicate_zero, zero_add, List.map_map]
    rfl
  apply list_ext_getD
  · rw [hlen1 rng,
      length_foldl_addVec _ _
        (fun p hp => by
          obtain ⟨ch, _, rfl⟩ := List.mem_map.mp hp
          rw [hlen1 ch, List.length_replicate]),
      List.length_replicate]
  · intro k
    rw [hgetD1 rng k,
      getD_foldl_addVec _ _ k
        (fun p hp => by
          obtain ⟨ch, _, rfl⟩ := List.mem_map.mp hp
          rw [hlen1 ch, List.length_replicate]),
      getD_replicate_zero, zero_add, List.map_map]
    have hentry : ∀ ch ∈ chunks,
        ((fun p => p.getD k 0) ∘ fun ch =>
          ch.foldl (fun acc i => addVec acc (vals i))
            (List.replicate L 0)) ch =
        (ch.map fun i => (vals i).getD k 0).sum :=
      fun ch _ => hgetD1 ch k
    rw [List.map_congr_left hentry]
    have hflat : (chunks.map fun ch =>
        (ch.map fun i => (vals i).getD k 0).sum).sum =
        ((chunks.map fun ch =>
          ch.map fun i => (vals i).getD k 0).flatten).sum := by
      rw [List.sum_flatten, List.map_map]
      rfl
    rw [hflat, ← List.map_flatten]
    exact (hperm.map fun i => (vals i).getD k 0).sum_eq

/-- C8: the value of sum_round_evals does not depend on how the vertex
index range is partitioned into worker chunks or on the order in which the
partial round_evals vectors are reduced: any chunk list whose concatenation
is a permutation of the vertex range produces exactly the output of the
canonical sequential run, because the per-chunk accumulations and the final
reduction are element-wise additions in a commutative monoid. -/
theorem claim8_partition_independence (s : ProverState F) (ev : Evaluator F)
    (chunks : List (List ℕ))
    (hlen : ∀ i e0 e1, (ev.contribution i e0 e1).length = ev.n_round_evals)
    (hperm : chunks.flatten.Perm
      (List.range (2 ^ (s.n_rounds - s.round - 1)))) :
    s.sum_round_evals_partitioned ev chunks = s.sum_round_evals ev := by
  unfold ProverState.sum_round_evals_partitioned ProverState.sum_round_evals
    ProverState.sum_round_evals_helper
  by_cases h1 : s.n_rounds < s.round
  · rw [if_pos h1, if_pos h1]
  rw [if_neg h1, if_neg h1]
  by_cases h2 : s.n_rounds - s.round = 0
  · rw [if_pos h2, if_pos h2]
  rw [if_neg h2, if_neg h2]
  by_cases hall : ∀ i ∈ List.range (2 ^ (s.n_rounds - s.round - 1)),
      (s.vertexContribution ev i).isSome = true
  · -- no vertex fails: both runs reduce to pure vector sums
    have hsome : ∀ acc : List F,
        ∀ i ∈ List.range (2 ^ (s.n_rounds - s.round - 1)),
        s.vertexStep s.chooseEval01 ev acc i =
          some (addVec acc (s.vertexVal ev i)) := by
      intro acc i hi
      rw [vertexStep_eq]
      obtain ⟨v, hv⟩ := Option.isSome_iff_exists.mp (hall i hi)
      rw [hv]
      simp [ProverState.vertexVal, hv]
    have hseq := foldlOpt_eq_some_foldl (s.vertexStep s.chooseEval01 ev)
      (fun acc i => addVec acc (s.vertexVal ev i))
      (List.range (2 ^ (s.n_rounds - s.round - 1)))
      (List.replicate ev.n_round_evals 0) hsome
    rw [hseq]
    have hchunk : ∀ ch ∈ chunks,
        foldlOpt (s.vertexStep s.chooseEval01 ev)
            (List.replicate ev.n_round_evals 0) ch =
          some (ch.foldl (fun acc i => addVec acc (s.vertexVal ev i))
            (List.replicate ev.n_round_evals 0)) := by
      intro ch hch
      apply foldlOpt_eq_some_foldl
      intro acc i hi
      exact hsome acc i ((hperm.mem_iff).mp
        (List.mem_flatten.mpr ⟨ch, hch, hi⟩))
    rw [mapOpt_eq_some_map _
      (fun ch => ch.foldl (fun acc i => addVec acc (s.vertexVal ev i))
        (List.replicate ev.n_round_evals 0))
      chunks hchunk]
    simp only [Option.map_some', Option.some.injEq]
    exact foldl_addVec_perm_chunks ev.n_round_evals (s.vertexVal ev)
      (vertexVal_length s ev hlen) chunks _ hperm
  · -- some vertex fails: both runs panic
    push_neg at hall
    obtain ⟨i0, hi0, hno⟩ := hall
    have hnone : s.vertexContribution ev i0 = none := by
      cases hvc : s.vertexContribution ev i0 with
      | none => rfl
      | some v =>
        rw [hvc] at hno
        simp at hno
    have hstepnone : ∀ acc : List F,
        s.vertexStep s.chooseEval01 ev acc i0 = none := by
      intro acc
      rw [vertexStep_eq, hnone]
      rfl
    rw [foldlOpt_eq_none (s.vertexStep s.chooseEval01 ev)
      (List.range (2 ^ (s.n_rounds - s.round - 1)))
      (List.replicate ev.n_round_evals 0) i0 hi0 hstepnone]
    obtain ⟨ch0, hch0, hich0⟩ :=
      List.mem_flatten.mp ((hperm.mem_iff).mpr hi0)
    rw [mapOpt_eq_none_of_mem _ chunks ch0 hch0
      (foldlOpt_eq_none (s.vertexStep s.chooseEval01 ev) ch0
        (List.replicate ev.n_round_evals 0) i0 hich0 hstepnone)]
    rfl

/-- C8 witness: the concrete all-folded one-operand state summed with the
reversed singleton partitioning equals the sequential run. -/
theorem claim8_witness :
    stnW.sum_round_evals_partitioned evW [[0]] =
      stnW.sum_round_evals evW :=
  claim8_partition_independence stnW evW [[0]]
    (fun _ _ _ => rfl) (by decide)

/-! Machinery for the round-coefficient claims (C3). -/

theorem extrapolate_line_one (a b : F) : extrapolate_line a b 1 = b := by
  unfold extrapolate_line
  ring

theorem getD_set (l : List F) (j : ℕ) (v : F) (i : ℕ) (hj : j < l.length) :
    (l.set j v).getD i 0 = if j = i then v else l.getD i 0 := by
  by_cases h : j = i
  · subst h
    rw [if_pos rfl, List.getD_eq_getElem _ _ (by simpa using hj)]
    exact List.getElem_set_self (by simpa using hj)
  · rw [if_neg h]
    by_cases h2 : i < l.length
    · rw [List.getD_eq_getElem _ _ (by simpa using h2),
        List.getD_eq_getElem _ _ h2]
      exact List.getElem_set_ne h _
    · rw [List.getD_eq_default _ _ (by simpa using h2),
        List.getD_eq_default _ _ (by simpa using h2)]

theorem zipWith_extrap_map (x : F) (ops : List (Multilin F))
    (g h : Multilin F → F) :
    List.zipWith (fun a b => extrapolate_line a b x) (ops.map g)
        (ops.map h) =
      ops.map fun m => extrapolate_line (g m) (h m) x := by
  induction ops with
  | nil => rfl
  | cons m t ih =>
    simp only [List.map_cons, List.zipWith_cons_cons, ih]

theorem zipWith_pair_scratch (x : F) :
    ∀ (e0 e1 z : List F), e1.length = e0.length → z.length = e0.length →
      List.zipWith (fun p _ => extrapolate_line p.1 p.2 x) (e0.zip e1) z =
        List.zipWith (fun a b => extrapolate_line a b x) e0 e1 := by
  intro e0
  induction e0 with
  | nil =>
    intro e1 z _ _
    simp
  | cons a as ih =>
    intro e1 z h1 h2
    cases e1 with
    | nil => simp at h1
    | cons b bs =>
      cases z with
      | nil => simp at h2
      | cons c cs =>
        simp only [List.zip_cons_cons, List.zipWith_cons_cons]
        rw [ih bs cs (by simpa using h1) (by simpa using h2)]

theorem writeExtrapolations_eq (e0 e1 : List F) (x : F) (z : List F)
    (he : e1.length = e0.length) (hz : z.length = e0.length) :
    writeExtrapolations e0 e1 x z =
      List.zipWith (fun a b => extrapolate_line a b x) e0 e1 := by
  unfold writeExtrapolations
  have hzipl : (e0.zip e1).length = e0.length := by
    rw [List.length_zip, he]
    simp
  rw [List.drop_eq_nil_of_le (by rw [hzipl, hz]), List.append_nil]
  exact zipWith_pair_scratch x e0 e1 z he hz

theorem filter_range'_pred (idx : ℕ) :
    ∀ k : ℕ, (List.range' 2 k).filter (fun d => d - 1 == idx) =
      if 1 ≤ idx ∧ idx ≤ k then [idx + 1] else [] := by
  intro k
  induction k with
  | zero =>
    rw [if_neg (by omega)]
    rfl
  | succ k2 ih =>
    rw [show List.range' 2 (k2 + 1) = List.range' 2 k2 ++ [2 + k2] from
      by simpa using @List.range'_concat 1 2 k2]
    rw [List.filter_append, ih]
    by_cases hx : (2 + k2) - 1 = idx
    · rw [if_neg (by omega), if_pos (by omega)]
      have hb : ((2 + k2) - 1 == idx) = true := beq_iff_eq.mpr hx
      have h2 : 2 + k2 = idx + 1 := by omega
      simp [List.filter_cons, hb, h2]
    · have hb : ((2 + k2) - 1 == idx) = false := by
        simp only [beq_eq_false_iff_ne, ne_eq]
        exact hx
      by_cases hc : 1 ≤ idx ∧ idx ≤ k2
      · rw [if_pos hc, if_pos (by omega)]
        simp [List.filter_cons, hb] <;> omega
      · rw [if_neg hc, if_neg (by omega)]
        simp [List.filter_cons, hb] <;> omega

theorem processLoop_spec (comp : List F → F) (e0 e1 domain : List F)
    (he : e1.length = e0.length) :
    ∀ (l : List ℕ) (z re : List F), z.length = e0.length →
      (∀ d ∈ l, d - 1 < re.length) →
      ∃ z2 re2, processLoop comp e0 e1 domain l z re = some (z2, re2) ∧
        z2.length = z.length ∧
        re2.length = re.length ∧
        ∀ idx : ℕ, re2.getD idx 0 = re.getD idx 0 +
          ((l.filter fun d => d - 1 == idx).map fun d =>
            comp (List.zipWith (fun a b => extrapolate_line a b
              (domain.getD d 0)) e0 e1)).sum := by
  intro l
  induction l with
  | nil =>
    intro z re hz _
    exact ⟨z, re, rfl, rfl, rfl, fun idx => by simp⟩
  | cons d rest ih =>
    intro z re hz hall
    have hd : d - 1 < re.length := hall d (by simp)
    have hwz : writeExtrapolations e0 e1 (domain.getD d 0) z =
        List.zipWith (fun a b => extrapolate_line a b (domain.getD d 0))
          e0 e1 :=
      writeExtrapolations_eq e0 e1 _ z he hz
    have hzl : (List.zipWith (fun a b => extrapolate_line a b
        (domain.getD d 0)) e0 e1).length = e0.length := by
      rw [List.length_zipWith, he]
      simp
    obtain ⟨z3, re3, hloop, hzl3, hlen3, hgetd3⟩ := ih
      (List.zipWith (fun a b => extrapolate_line a b (domain.getD d 0))
        e0 e1)
      (re.set (d - 1) (re.getD (d - 1) 0 +
        comp (List.zipWith (fun a b => extrapolate_line a b
          (domain.getD d 0)) e0 e1)))
      hzl
      (fun d2 hd2 => by
        rw [List.length_set]
        exact hall d2 (by simp [hd2]))
    refine ⟨z3, re3, ?_, ?_, ?_, ?_⟩
    · show (if d - 1 < re.length then
          processLoop comp e0 e1 domain rest
            (writeExtrapolations e0 e1 (domain.getD d 0) z)
            (re.set (d - 1) (re.getD (d - 1) 0 +
              comp (writeExtrapolations e0 e1 (domain.getD d 0) z)))
        else none) = some (z3, re3)
      rw [if_pos hd, hwz]
      exact hloop
    · rw [hzl3, hzl, hz]
    · rw [hlen3, List.length_set]
    · intro idx
      rw [hgetd3 idx, getD_set re (d - 1) _ idx hd]
      by_cases hpd : d - 1 = idx
      · have hb : (d - 1 == idx) = true := beq_iff_eq.mpr hpd
        rw [List.filter_cons, if_pos hb]
        simp only [List.map_cons, List.sum_cons]
        rw [if_pos hpd, hpd]
        ring
      · have hb : (d - 1 == idx) = false := by
          simp only [beq_eq_false_iff_ne, ne_eq]
          exact hpd
        rw [if_neg hpd, List.filter_cons]
        simp [hb]

theorem process_round_evals_spec (comp : List F → F)
    (e0 e1 z re domain : List F) (he : e1.length = e0.length)
    (hz : z.length = e0.length) (hre : 0 < re.length)
    (hred : re.length = domain.length - 1) :
    ∃ z2 re2, process_round_evals comp e0 e1 z re domain = some (z2, re2) ∧
      z2.length = z.length ∧
      re2.length = re.length ∧
      re2.getD 0 0 = re.getD 0 0 + comp e1 ∧
      ∀ idx : ℕ, 1 ≤ idx →
        re2.getD idx 0 = re.getD idx 0 +
          (((List.range' 2 (domain.length - 1 - 1)).filter
              fun d => d - 1 == idx).map fun d =>
            comp (List.zipWith (fun a b => extrapolate_line a b
              (domain.getD d 0)) e0 e1)).sum := by
  have hall : ∀ d ∈ List.range' 2 (domain.length - 1 - 1),
      d - 1 < (re.set 0 (re.getD 0 0 + comp e1)).length := by
    intro d hd
    rw [List.length_set]
    have := List.mem_range'_1.mp hd
    omega
  obtain ⟨z2, re2, hloop, hz2, hlen2, hgetd2⟩ := processLoop_spec comp e0 e1
    domain he (List.range' 2 (domain.length - 1 - 1)) z
    (re.set 0 (re.getD 0 0 + comp e1)) hz hall
  refine ⟨z2, re2, ?_, hz2, by rw [hlen2, List.length_set], ?_, ?_⟩
  · unfold process_round_evals
    rw [if_pos hre]
    exact hloop
  · rw [hgetd2 0, getD_set re 0 _ 0 hre, if_pos rfl,
      filter_range'_pred 0 (domain.length - 1 - 1), if_neg (by omega)]
    simp
  · intro idx hidx
    rw [hgetd2 idx, getD_set re 0 _ idx hre, if_neg (by omega)]

/-- The amount one hypercube vertex adds to round_evals slot idx in
compute_round_coeffs_first: the composition at X = 1 for slot 0, and the
composition of extrapolations at domain[idx + 1] for the loop slots. -/
def vertexAdd (comp : List F → F) (ops : List (Multilin F)) (domain : List F)
    (idx i : ℕ) : F :=
  (if idx = 0 then comp (ops.map fun m => m.evals (2 * i + 1)) else 0) +
  (((List.range' 2 (domain.length - 1 - 1)).filter
      fun d => d - 1 == idx).map fun d =>
    comp (ops.map fun m => extrapolate_line (m.evals (2 * i))
      (m.evals (2 * i + 1)) (domain.getD d 0))).sum

theorem computeLoop_spec (comp : List F → F) (ops : List (Multilin F))
    (domain : List F) (rd_vars : ℕ) (hops : ∀ m ∈ ops, m.nVars = rd_vars) :
    ∀ (l : List ℕ) (z re : List F), z.length = ops.length →
      0 < re.length → re.length = domain.length - 1 →
      (∀ i ∈ l, 2 * i + 1 < 2 ^ rd_vars) →
      ∃ pr : List F × List F, computeLoop comp ops domain l z re = some pr ∧
        pr.2.length = re.length ∧
        ∀ idx : ℕ, pr.2.getD idx 0 = re.getD idx 0 +
          (l.map fun i => vertexAdd comp ops domain idx i).sum := by
  intro l
  induction l with
  | nil =>
    intro z re hz hre hred _
    exact ⟨(z, re), rfl, rfl, fun idx => by simp⟩
  | cons i rest ih =>
    intro z re hz hre hred hrange
    have hi := hrange i (by simp)
    have he0 : mapOpt (fun m => m.evaluate_on_hypercube (2 * i)) ops =
        some (ops.map fun m => m.evals (2 * i)) :=
      mapOpt_eq_some_map _ _ ops (fun m hm => by
        unfold Multilin.evaluate_on_hypercube
        rw [if_pos (by rw [hops m hm]; omega)])
    have he1 : mapOpt (fun m => m.evaluate_on_hypercube (2 * i + 1)) ops =
        some (ops.map fun m => m.evals (2 * i + 1)) :=
      mapOpt_eq_some_map _ _ ops (fun m hm => by
        unfold Multilin.evaluate_on_hypercube
        rw [if_pos (by rw [hops m hm]; exact hi)])
    obtain ⟨z2, re2, hproc, hz2, hlen2, hget0, hgetidx⟩ :=
      process_round_evals_spec comp
        (ops.map fun m => m.evals (2 * i))
        (ops.map fun m => m.evals (2 * i + 1)) z re domain
        (by simp) (by rw [hz, List.length_map]) hre hred
    obtain ⟨pr, hloop, hlenp, hgetp⟩ := ih z2 re2
      (by rw [hz2, hz]) (by rw [hlen2]; exact hre)
      (by rw [hlen2]; exact hred)
      (fun i2 h2 => hrange i2 (by simp [h2]))
    refine ⟨pr, ?_, by rw [hlenp, hlen2], ?_⟩
    · show computeLoop comp ops domain (i :: rest) z re = some pr
      simp only [computeLoop, he0, he1, hproc]
      exact hloop
    · intro idx
      rw [hgetp idx]
      by_cases hidx : idx = 0
      · subst hidx
        rw [hget0]
        simp only [List.map_cons, List.sum_cons]
        unfold vertexAdd
        rw [if_pos rfl, filter_range'_pred 0 (domain.length - 1 - 1),
          if_neg (by omega)]
        simp only [List.map_nil, List.sum_nil, add_zero]
        ring
      · rw [hgetidx idx (by omega)]
        simp only [List.map_cons, List.sum_cons]
        unfold vertexAdd
        rw [if_neg hidx]
        have hmapeq : ∀ d2 ∈ (List.range' 2 (domain.length - 1 - 1)).filter
            (fun d => d - 1 == idx),
            comp (List.zipWith (fun a b => extrapolate_line a b
              (domain.getD d2 0)) (ops.map fun m => m.evals (2 * i))
              (ops.map fun m => m.evals (2 * i + 1))) =
            comp (ops.map fun m => extrapolate_line (m.evals (2 * i))
              (m.evals (2 * i + 1)) (domain.getD d2 0)) :=
          fun d2 _ => by rw [zipWith_extrap_map]
        rw [List.map_congr_left hmapeq]
        ring

theorem list_range_map_sum (n : ℕ) (f : ℕ → F) :
    ((List.range n).map f).sum = ∑ i ∈ Finset.range n, f i := by
  induction n with
  | zero => simp
  | succ m ih =>
    rw [List.range_succ, Finset.sum_range_succ, List.map_append,
      List.sum_append, ih]
    simp

/-- Round evaluations of process_round_evals extracted from the threaded
pair (empty on the failure path). -/
def processRE (comp : List F → F) (e0 e1 z re domain : List F) : List F :=
  ((process_round_evals comp e0 e1 z re domain).getD ([], [])).2

/-- Coefficient vector of compute_round_coeffs_first (empty on the failure
path). -/
def computeCoeffs (comp : List F → F) (ops : List (Multilin F))
    (rd_vars : ℕ) (domain : List F) : List F :=
  (compute_round_coeffs_first comp ops rd_vars domain).getD []

/-- C3: for a degree-d evaluation domain [dom_0, dom_1 = 1, dom_2, ...,
dom_d], process_round_evals at one vertex adds composition(evals_1) to
round_evals[0] and, for each d2 in 2..=d, adds the composition of the
pointwise line extrapolations of (evals_0, evals_1) at dom_d2 to
round_evals[d2 - 1]; consequently the coefficient vector returned by
compute_round_coeffs_first has length d and holds the naive reference
round polynomial evaluated at 1 (slot 0) and at dom_d2 (slot d2 - 1). -/
theorem claim3_round_coeffs_first (comp : List F → F)
    (ops : List (Multilin F)) (rd_vars d : ℕ) (domain e0 e1 z re : List F)
    (hd : 1 ≤ d) (hdom : domain.length = d + 1)
    (hdom1 : domain.getD 1 0 = 1)
    (he : e1.length = e0.length) (hz : z.length = e0.length)
    (hre : re.length = d)
    (hops : ∀ m ∈ ops, m.nVars = rd_vars) (hrd : 1 ≤ rd_vars) :
    ((process_round_evals comp e0 e1 z re domain).isSome = true ∧
      (processRE comp e0 e1 z re domain).length = d ∧
      (processRE comp e0 e1 z re domain).getD 0 0 =
        re.getD 0 0 + comp e1 ∧
      ∀ d2 : ℕ, 2 ≤ d2 → d2 ≤ d →
        (processRE comp e0 e1 z re domain).getD (d2 - 1) 0 =
          re.getD (d2 - 1) 0 +
            comp (List.zipWith (fun a b => extrapolate_line a b
              (domain.getD d2 0)) e0 e1)) ∧
    ((compute_round_coeffs_first comp ops rd_vars domain).isSome = true ∧
      (computeCoeffs comp ops rd_vars domain).length = d ∧
      (computeCoeffs comp ops rd_vars domain).getD 0 0 =
        roundPolyEval comp ops rd_vars 1 ∧
      ∀ d2 : ℕ, 2 ≤ d2 → d2 ≤ d →
        (computeCoeffs comp ops rd_vars domain).getD (d2 - 1) 0 =
          roundPolyEval comp ops rd_vars (domain.getD d2 0)) := by
  obtain ⟨z2, re2, hproc, hz2, hlen2, hget0, hgetidx⟩ :=
    process_round_evals_spec comp e0 e1 z re domain he hz
      (by rw [hre]; omega) (by rw [hre, hdom]; omega)
  have hpr : processRE comp e0 e1 z re domain = re2 := by
    unfold processRE
    rw [hproc]
    rfl
  obtain ⟨⟨z3, re3⟩, hloop, hlenp, hgetp⟩ :=
    computeLoop_spec comp ops domain rd_vars hops
      (List.range (2 ^ (rd_vars - 1))) (List.replicate ops.length 0)
      (List.replicate (domain.length - 1) 0)
      (by rw [List.length_replicate])
      (by rw [List.length_replicate, hdom]; omega)
      (by rw [List.length_replicate])
      (fun i hi => by
        rw [List.mem_range] at hi
        have h2p : 2 * 2 ^ (rd_vars - 1) = 2 ^ rd_vars := by
          rw [← pow_succ']
          congr 1
          omega
        omega)
  have hcomp : compute_round_coeffs_first comp ops rd_vars domain =
      some re3 := by
    show (if rd_vars = 0 then none else
      match computeLoop comp ops domain (List.range (2 ^ (rd_vars - 1)))
          (List.replicate ops.length 0)
          (List.replicate (domain.length - 1) 0) with
      | some (_, round_evals) => some round_evals
      | none => none) = some re3
    rw [if_neg (by omega), hloop]
  have hcc : computeCoeffs comp ops rd_vars domain = re3 := by
    unfold computeCoeffs
    rw [hcomp]
    rfl
  refine ⟨⟨by rw [hproc]; rfl, by rw [hpr, hlen2, hre], by rw [hpr, hget0],
      ?_⟩, by rw [hcomp]; rfl,
      by rw [hcc]; simp at hlenp; rw [hlenp, hdom]; omega,
      ?_, ?_⟩
  · intro d2 h2 hd2
    rw [hpr, hgetidx (d2 - 1) (by omega),
      filter_range'_pred (d2 - 1) (domain.length - 1 - 1),
      if_pos (by rw [hdom]; omega),
      show d2 - 1 + 1 = d2 from by omega]
    simp only [List.map_cons, List.map_nil, List.sum_cons, List.sum_nil,
      add_zero]
  · rw [hcc]
    have hg := hgetp 0
    simp only at hg
    rw [hg, getD_replicate_zero, zero_add, list_range_map_sum]
    unfold roundPolyEval
    apply Finset.sum_congr rfl
    intro i _
    unfold vertexAdd
    rw [if_pos rfl, filter_range'_pred 0 (domain.length - 1 - 1),
      if_neg (by omega)]
    simp only [List.map_nil, List.sum_nil, add_zero]
    congr 1
    refine List.map_congr_left fun m _ => ?_
    rw [extrapolate_line_one]
  · intro d2 h2 hd2
    rw [hcc]
    have hg := hgetp (d2 - 1)
    simp only at hg
    rw [hg, getD_replicate_zero, zero_add, list_range_map_sum]
    unfold roundPolyEval
    apply Finset.sum_congr rfl
    intro i _
    unfold vertexAdd
    rw [if_neg (by omega), filter_range'_pred (d2 - 1)
        (domain.length - 1 - 1),
      if_pos (by rw [hdom]; omega),
      show d2 - 1 + 1 = d2 from by omega]
    simp only [List.map_cons, List.map_nil, List.sum_cons, List.sum_nil,
      add_zero, zero_add]

/-- C3 witness: one concrete vertex over the integers with domain
[0, 1, 2]: the first coefficient of compute_round_coeffs_first equals the
reference round polynomial at 1. -/
theorem claim3_witness :
    (computeCoeffs (fun l : List ℤ => l.getD 0 0) [mW] 1 [0, 1, 2]).getD 0 0 =
      roundPolyEval (fun l : List ℤ => l.getD 0 0) [mW] 1 1 :=
  (claim3_round_coeffs_first (fun l : List ℤ => l.getD 0 0) [mW] 1 2
    [0, 1, 2] [5] [7] [0] [0, 0] (by omega) rfl rfl rfl rfl rfl
    (fun m hm => by rw [List.mem_singleton] at hm; rw [hm]; rfl)
    (by omega)).2.2.2.1

end WasmBinius
